import Mathlib

/-!
Verification development for the Clause Risk Analysis Engine of the
legal-assistant repository (modules `risk_analyzer.py`, `nlp_pipeline.py`,
`document_processor.py`, `hindi_translator.py`, `language_detector.py`).

The Python source is shallowly embedded: strings are `String`/`List Char`,
Python ints are `Int`/`Nat`, Python floats produced by `/` and `round` are
modelled as exact rationals `ℚ`, and the two guarded divisions in the source
are modelled with an `Option`-valued division so that the guards' adequacy is
a theorem rather than an artifact of Lean totality.

Regular expressions are embedded per pattern.  The risk-pattern table only
uses literal fragments joined by `.*` plus `\d+`; for those a small
existential matcher reproduces the boolean outcome of `re.search` (Python's
backtracking search succeeds iff some decomposition matches, and `.` does not
cross a newline without `re.DOTALL`).  The structural clause-delimiter
patterns and the normalizer's rewrite patterns are deterministic once
greediness is taken into account; each is embedded as a function computing
the leftmost match exactly as CPython's engine does, with the greediness
argument recorded in a comment next to the function.

Character classes are Python's with the Unicode tables restricted to the
ranges that occur in this repository's data: `\d` is ASCII or Devanagari
digits, `\s` is ASCII whitespace, `\w` is ASCII alphanumeric, underscore or a
Devanagari code point (U+0900-U+097F).
-/

namespace Legal

/-- Python `\d` restricted to ASCII and Devanagari digits. -/
def isPyDigit (c : Char) : Bool := c.isDigit || ('०' ≤ c && c ≤ '९')

/-- Python `\s` (ASCII whitespace: space, tab, newline, carriage return,
vertical tab, form feed). -/
def isPySpace (c : Char) : Bool :=
  c = ' ' || c = '\t' || c = '\n' || c = '\r' || c = '\x0b' || c = '\x0c'

/-- Python `\w` restricted to ASCII word characters and the Devanagari
block. -/
def isWordChar (c : Char) : Bool :=
  c.isAlphanum || c = '_' || ('ऀ' ≤ c && c ≤ 'ॿ') || isPyDigit c

/-- A code point of the Devanagari block U+0900-U+097F, i.e. the character
class `[ऀ-ॿ]` used by the language detector. -/
def isDevanagari (c : Char) : Bool := 'ऀ' ≤ c && c ≤ 'ॿ'

/-- Python `str.strip()`: remove leading and trailing whitespace. -/
def pyStrip (s : List Char) : List Char :=
  ((s.dropWhile isPySpace).reverse.dropWhile isPySpace).reverse

/-- Python `str.lower()` (ASCII case folding; the Devanagari text in this
repository has no case). -/
def pyLower (s : List Char) : List Char := s.map Char.toLower

/-- Consume a literal character sequence from the front of a string,
returning the remainder on success. -/
def consumeLit : List Char → List Char → Option (List Char)
  | [], s => some s
  | _ :: _, [] => none
  | l :: ls, c :: cs => if c = l then consumeLit ls cs else none

/-! ### Existential matcher for the risk-pattern table

A risk pattern is a chain of parts separated by `.*`; a part is a sequence
of atoms, each a literal fragment or `\d+`.  `re.search` on such a pattern
succeeds iff the text has a decomposition: some start position, each part
matched contiguously, consecutive parts separated by gaps free of newlines
(`.` does not match a newline).  Greediness never changes this boolean, so
the embedding enumerates decompositions. -/

/-- One atom of a risk pattern: a literal fragment or `\d+`. -/
inductive PAtom where
  | lit (cs : List Char)
  | digits
  deriving Repr

/-- All suffixes reachable from `s` by consuming one or more digits
(the possible remainders after `\d+`). -/
def digitSuffixes : List Char → List (List Char)
  | [] => []
  | c :: cs => if isPyDigit c then cs :: digitSuffixes cs else []

/-- All suffixes reachable from `s` by consuming zero or more non-newline
characters (the possible remainders after `.*`). -/
def gapSuffixes : List Char → List (List Char)
  | [] => [[]]
  | c :: cs => (c :: cs) :: (if c = '\n' then [] else gapSuffixes cs)

/-- Match a part (atom sequence, no gaps) at the start of `s`; all possible
remainders. -/
def matchPart : List PAtom → List Char → List (List Char)
  | [], s => [s]
  | PAtom.lit l :: rest, s =>
    match consumeLit l s with
    | some s2 => matchPart rest s2
    | none => []
  | PAtom.digits :: rest, s => (digitSuffixes s).flatMap (matchPart rest)

/-- Match a chain of parts separated by `.*` at the start of `s`. -/
def matchChain : List (List PAtom) → List Char → Bool
  | [], _ => true
  | [p], s => !(matchPart p s).isEmpty
  | p :: q :: rest, s =>
    (matchPart p s).any fun s2 =>
      (gapSuffixes s2).any fun s3 => matchChain (q :: rest) s3

/-- Python `re.search` for a chain pattern: try every start position. -/
def searchChain (parts : List (List PAtom)) (s : List Char) : Bool :=
  s.tails.any fun t => matchChain parts t

/-- Python `re.search` for an alternation of chain patterns. -/
def searchAlt (alts : List (List (List PAtom))) (s : List Char) : Bool :=
  alts.any fun p => searchChain p s

/-- A chain made of a single literal part. -/
def plit (t : String) : List (List PAtom) := [[PAtom.lit t.toList]]

/-- A literal part atom. -/
def alit (t : String) : PAtom := PAtom.lit t.toList

/-! ### `risk_analyzer.py` -/

/-- One entry of the `issues` list produced by `analyze_clause_risk`.  The
source also stores a `context` field (a substring window around the match);
that display-only field is outside the scope of the claims and is not
modelled. -/
structure RiskIssue where
  issue : String
  risk_level : String
  deriving Repr, DecidableEq

/-- The dictionary returned by `analyze_clause_risk`. -/
structure ClauseAnalysis where
  risk_score : Int
  risk_level : String
  issues : List RiskIssue
  suggestions : List String
  clause_type : String
  deriving Repr, DecidableEq

/-- One tier of the `risk_patterns` table: its per-pattern weight, the label
`risk_level.split('_')[0].capitalize()` computed by the source, and the
(pattern, explanation) pairs. -/
structure RiskTier where
  weight : Int
  label : String
  patterns : List (List (List PAtom) × String)

/-- The `risk_patterns` table of `RiskAnalyzer.__init__`, in source order:
high (+3), medium (+2), low (+1). -/
def risk_patterns : List RiskTier :=
  [ { weight := 3, label := "High",
      patterns :=
        [ (plit "unlimited liability",
           "Unlimited liability exposes business to catastrophic risk"),
          ([[alit "indemnify"], [alit "for"], [alit "negligence"]],
           "Indemnifying for others' negligence is extremely risky"),
          ([[alit "penalty"], [PAtom.digits, alit "%"], [alit "per month"]],
           "High penalty rates can be punitive"),
          ([[alit "sole discretion"], [alit "terminate"]],
           "Unilateral termination rights are unfair"),
          ([[alit "automatic renewal"], [alit "without notice"]],
           "Auto-renewal without notice creates lock-in"),
          ([[alit "jurisdiction"], [alit "foreign country"]],
           "Foreign jurisdiction increases legal costs"),
          ([[alit "assign"], [alit "without consent"]],
           "Assignment without consent may transfer obligations unfairly") ] },
    { weight := 2, label := "Medium",
      patterns :=
        [ ([[alit "confidentiality"], [alit "indefinite"]],
           "Indefinite confidentiality may be unreasonable"),
          ([[alit "non-compete"], [PAtom.digits, alit " years"]],
           "Long non-compete periods may restrict business"),
          ([[alit "force majeure"], [alit "exclusive remedy"]],
           "Limited force majeure protection"),
          ([[alit "governing law"], [alit "another state"]],
           "Different state law increases complexity"),
          ([[alit "payment terms"], [PAtom.digits, alit " days"]],
           "Long payment terms affect cash flow"),
          ([[alit "warranty"], [alit "as is"]],
           "'As is' warranty provides no protection") ] },
    { weight := 1, label := "Low",
      patterns :=
        [ ([[alit "notice"], [alit "in writing"]],
           "Written notice requirement is standard"),
          (plit "entire agreement", "Entire agreement clause is standard"),
          (plit "severability", "Severability clause is protective"),
          (plit "counterparts", "Counterparts clause is standard") ] } ]

/-- The `alternatives` dictionary of `RiskAnalyzer.__init__`. -/
def alternatives : List (String × String) :=
  [ ("unlimited liability",
     "Suggest capping liability to contract value or insurance limits"),
    ("sole discretion",
     "Suggest requiring 'reasonable grounds' or mutual agreement"),
    ("automatic renewal",
     "Suggest requiring 30-60 day notice before renewal"),
    ("foreign jurisdiction",
     "Suggest local jurisdiction or neutral arbitration venue"),
    ("indefinite confidentiality",
     "Suggest 2-5 year term after contract end") ]

/-- Substring test (`needle in hay` for Python strings). -/
def containsSub (hay needle : List Char) : Bool :=
  hay.tails.any fun t => (consumeLit needle t).isSome

/-- `RiskAnalyzer._generate_suggestion`: first `alternatives` entry whose key
occurs in the lower-cased issue text, else the empty string. -/
def generate_suggestion (issue : String) : String :=
  match alternatives.find? fun p => containsSub (pyLower issue.toList) p.1.toList with
  | some p => p.2
  | none => ""

/-- `RiskAnalyzer._score_to_level`, shared by clause and composite scoring.
It is applied to ints and floats in the source; both embed into `ℚ`. -/
def score_to_level (score : ℚ) : String :=
  if 7 ≤ score then "High" else if 4 ≤ score then "Medium" else "Low"

/-- `RiskAnalyzer._get_clause_type_risks`: the clause-type adjustment and its
extra issues.  The searches are case-insensitive in the source; here they run
on the lower-cased text supplied by the caller. -/
def get_clause_type_risks (clause_type : String) (lower : List Char) :
    Int × List RiskIssue :=
  if clause_type = "Indemnity" then
    (2,
     if searchChain [[alit "indemnify"], [alit "all"]] lower then
       [{ issue := "Broad 'all losses' indemnity may include indirect/consequential damages",
          risk_level := "High" }]
     else [])
  else if clause_type = "Termination" then
    if searchChain (plit "without cause") lower then
      (3,
       [{ issue := "'Without cause' termination provides no stability",
          risk_level := "High" }])
    else (0, [])
  else if clause_type = "Jurisdiction" then
    if searchAlt [plit "delhi", plit "mumbai", plit "bangalore"] lower then
      (-1,
       [{ issue := "Local Indian jurisdiction is preferable for SMEs",
          risk_level := "Low" }])
    else (0, [])
  else (0, [])

/-- `RiskAnalyzer.analyze_clause_risk`.  The source iterates the tiers in
dict insertion order (high, medium, low), accumulates the weight and an issue
for every matching pattern, adds the clause-type adjustment, derives
suggestions from all collected issues, then clamps with `min(10, risk_score)`
once at the end.  All pattern searches use `re.IGNORECASE` with lower-case
ASCII patterns, embedded as matching against the lower-cased text. -/
def analyze_clause_risk (clause_text clause_type : String) : ClauseAnalysis :=
  let lower := pyLower clause_text.toList
  let matched :=
    risk_patterns.flatMap fun tier =>
      tier.patterns.filterMap fun pq =>
        if searchChain pq.1 lower then
          some (tier.weight, ({ issue := pq.2, risk_level := tier.label } : RiskIssue))
        else none
  let tr := get_clause_type_risks clause_type lower
  let risk_score : Int := (matched.map (fun m => m.1)).sum + tr.1
  let issues := matched.map (fun m => m.2) ++ tr.2
  let suggestions :=
    issues.filterMap fun i =>
      let s := generate_suggestion i.issue
      if s = "" then none else some s
  let normalized : Int := min 10 risk_score
  { risk_score := normalized,
    risk_level := score_to_level (normalized : ℚ),
    issues := issues.take 5,
    suggestions := suggestions.take 3,
    clause_type := clause_type }

/-! ### `calculate_composite_risk` -/

/-- Guarded division: Python raises `ZeroDivisionError` on a zero
denominator, embedded as `none`. -/
def pyDiv (a b : ℚ) : Option ℚ := if b = 0 then none else some (a / b)

/-- Round-half-to-even to an integer, as Python's `round` does on exactly
representable values. -/
def roundHalfEven (q : ℚ) : ℤ :=
  let f := ⌊q⌋
  if q - f < 1 / 2 then f
  else if 1 / 2 < q - f then f + 1
  else if f % 2 = 0 then f else f + 1

/-- Python `round(x, 1)` over exact rationals. -/
def pyRound1 (x : ℚ) : ℚ := (roundHalfEven (10 * x) : ℚ) / 10

/-- Python `round(x, 3)` over exact rationals. -/
def pyRound3 (x : ℚ) : ℚ := (roundHalfEven (1000 * x) : ℚ) / 1000

/-- Result of `calculate_composite_risk`.  The source returns dicts of two
different shapes: a two-key dict for an empty input and the full seven-field
dict otherwise; the two constructors mirror the two `return` statements.
`dist_low` is `total_clauses - high - medium` computed with Python int
subtraction, hence `ℤ`. -/
inductive CompositeRisk where
  | short (overall_risk : String) (score : ℚ)
  | full (overall_risk : String) (score : ℚ)
      (high_risk_count medium_risk_count total_clauses : ℕ)
      (dist_high dist_medium : ℕ) (dist_low : ℤ)
  deriving Repr, DecidableEq

/-- Sum of the three `risk_distribution` fields (0 for the empty-input
shape, which has no distribution). -/
def CompositeRisk.distSum : CompositeRisk → ℤ
  | .short _ _ => 0
  | .full _ _ _ _ _ dh dm dl => (dh : ℤ) + (dm : ℤ) + dl

/-- The `total_clauses` field (0 for the empty-input shape). -/
def CompositeRisk.totalClauses : CompositeRisk → ℕ
  | .short _ _ => 0
  | .full _ _ _ _ tc _ _ _ => tc

/-- The `risk_distribution.high` field. -/
def CompositeRisk.distHigh : CompositeRisk → ℕ
  | .short _ _ => 0
  | .full _ _ _ _ _ dh _ _ => dh

/-- The `risk_distribution.medium` field. -/
def CompositeRisk.distMedium : CompositeRisk → ℕ
  | .short _ _ => 0
  | .full _ _ _ _ _ _ dm _ => dm

/-- `RiskAnalyzer.calculate_composite_risk`.  Empty input returns the short
dict; otherwise the average risk score is computed by true division (the
emptiness guard is the only thing keeping the denominator nonzero, so the
division is embedded with `pyDiv`). -/
def calculate_composite_risk (clause_analyses : List ClauseAnalysis) :
    Option CompositeRisk :=
  if clause_analyses.isEmpty then some (CompositeRisk.short "Low" 0)
  else
    let total_score : Int := (clause_analyses.map (fun a => a.risk_score)).sum
    match pyDiv (total_score : ℚ) (clause_analyses.length : ℚ) with
    | none => none
    | some avg_score =>
      let high := clause_analyses.filter fun c => c.risk_level == "High"
      let med := clause_analyses.filter fun c => c.risk_level == "Medium"
      some (CompositeRisk.full (score_to_level (avg_score * 2)) (pyRound1 avg_score)
        high.length med.length clause_analyses.length
        high.length med.length
        ((clause_analyses.length : ℤ) - (high.length : ℤ) - (med.length : ℤ)))

/-! ### `nlp_pipeline.py`: `classify_clause_type`

The classifier is an if/elif chain of `re.search` calls on the lower-cased
clause text; every pattern is an alternation of literal fragments, so each
test is a disjunction of substring checks. -/

/-- `NLPProcessor.classify_clause_type`, embedded as the source's if/elif
chain. -/
def classify_clause_type (clause_text : String) : String :=
  let l := pyLower clause_text.toList
  if containsSub l "indemnif".toList || containsSub l "hold harmless".toList then
    "Indemnity"
  else if containsSub l "confidential".toList || containsSub l "nda".toList ||
      containsSub l "non-disclosure".toList then
    "Confidentiality"
  else if containsSub l "terminat".toList || containsSub l "expir".toList ||
      containsSub l "cancel".toList then
    "Termination"
  else if containsSub l "jurisdiction".toList || containsSub l "governing law".toList ||
      containsSub l "venue".toList then
    "Jurisdiction"
  else if containsSub l "intellectual property".toList || containsSub l "ip".toList ||
      containsSub l "copyright".toList || containsSub l "patent".toList then
    "Intellectual Property"
  else if containsSub l "warrant".toList || containsSub l "represent".toList then
    "Warranties"
  else if containsSub l "liability".toList ||
      containsSub l "limitation of liability".toList then
    "Liability"
  else if containsSub l "payment".toList || containsSub l "fee".toList ||
      containsSub l "consideration".toList then
    "Payment"
  else if containsSub l "force majeure".toList then
    "Force Majeure"
  else if containsSub l "dispute".toList || containsSub l "arbitration".toList ||
      containsSub l "mediation".toList then
    "Dispute Resolution"
  else
    "General"

/-- The classifier taxonomy as the spec states it: a fixed priority-ordered
list of categories, each with its keyword set.  Written from the spec's words
to be compared with the source's if/elif chain. -/
def classifierTaxonomy : List (String × List String) :=
  [ ("Indemnity", ["indemnif", "hold harmless"]),
    ("Confidentiality", ["confidential", "nda", "non-disclosure"]),
    ("Termination", ["terminat", "expir", "cancel"]),
    ("Jurisdiction", ["jurisdiction", "governing law", "venue"]),
    ("Intellectual Property", ["intellectual property", "ip", "copyright", "patent"]),
    ("Warranties", ["warrant", "represent"]),
    ("Liability", ["liability", "limitation of liability"]),
    ("Payment", ["payment", "fee", "consideration"]),
    ("Force Majeure", ["force majeure"]),
    ("Dispute Resolution", ["dispute", "arbitration", "mediation"]) ]

/-- First category of an ordered taxonomy whose keyword set matches the
text, else "General" — the spec's first-match-wins rule. -/
def firstMatching (l : List Char) : List (String × List String) → String
  | [] => "General"
  | c :: cs =>
    if c.2.any (fun k => containsSub l k.toList) then c.1 else firstMatching l cs

/-- The spec's classifier: first matching category of the priority-ordered
taxonomy, else "General". -/
def classifySpec (clause_text : String) : String :=
  firstMatching (pyLower clause_text.toList) classifierTaxonomy

/-! ### `document_processor.py`: `segment_clauses`

`re.split` needs actual match spans, so each of the four structural
delimiter patterns is embedded as a deterministic head-matcher returning the
remainder after the leftmost-anchored match, exactly reproducing CPython's
greedy backtracking on that pattern (the collapse of backtracking into a
deterministic scan is justified pattern by pattern below). -/

/-- The `Clause` dictionaries produced by `segment_clauses`. -/
structure Clause where
  clause_id : ℕ
  title : String
  text : String
  full_text : String
  deriving Repr, DecidableEq

/-- Head match for `\n\s*\d+\.\s+` (pattern 1, numbered clauses).
Backtracking collapses: `\s*` must end at a digit and every shorter try ends
at whitespace, so it consumes the maximal whitespace run; `\d+` likewise
consumes the maximal digit run (shorter tries leave a digit where `\.` is
required); `\.` is literal; the final `\s+` has no following constraint, so
greedy means the maximal (nonempty) whitespace run. -/
def p1Match (s : List Char) : Option (List Char) :=
  match s with
  | '\n' :: t =>
    let w := t.dropWhile isPySpace
    let d := w.takeWhile isPyDigit
    if d.isEmpty then none
    else
      match w.drop d.length with
      | '.' :: v =>
        let w2 := v.takeWhile isPySpace
        if w2.isEmpty then none else some (v.drop w2.length)
      | _ => none
  | _ => none

/-- Head match for `\n\s*\([a-z]\)\s+` (pattern 2, lettered sub-clauses).
Backtracking collapses exactly as for pattern 1. -/
def p2Match (s : List Char) : Option (List Char) :=
  match s with
  | '\n' :: t =>
    match t.dropWhile isPySpace with
    | '(' :: c :: ')' :: v =>
      if 'a' ≤ c && c ≤ 'z' then
        let w2 := v.takeWhile isPySpace
        if w2.isEmpty then none else some (v.drop w2.length)
      else none
    | _ => none
  | _ => none

/-- Uppercase ASCII letter, the class `[A-Z]`. -/
def isUpper (c : Char) : Bool := 'A' ≤ c && c ≤ 'Z'

/-- The class `[A-Z\s]`. -/
def isUpperOrSpace (c : Char) : Bool := isUpper c || isPySpace c

/-- Trailing `\s*\n` of patterns 3 and 4: the engine takes the maximal
whitespace run and backtracks `\s*` until the next character is a newline,
i.e. the match ends just after the last newline of the leading whitespace run
(failing if that run has no newline).  Returns the remainder. -/
def tailAfterLastNL : List Char → Option (List Char)
  | [] => none
  | c :: t =>
    if c = '\n' then some ((tailAfterLastNL t).getD t)
    else if isPySpace c then tailAfterLastNL t
    else none

/-- Head match for `\n\s*[A-Z][A-Z\s]+\s*:\s*\n` (pattern 3, all-caps
headers).  Backtracking collapses: `\s*` must end at an `[A-Z]` character;
`[A-Z\s]+` consumes its maximal run and the following `\s*` then matches
nothing new, so `:` must be the first character outside the run (any shorter
split of the run leaves a class character where `:` is required, except
splits that re-reach the same position); the trailing `\s*\n` is
`tailAfterLastNL`. -/
def p3Match (s : List Char) : Option (List Char) :=
  match s with
  | '\n' :: t =>
    match t.dropWhile isPySpace with
    | c :: u =>
      if isUpper c then
        let r := u.takeWhile isUpperOrSpace
        if r.isEmpty then none
        else
          match u.drop r.length with
          | ':' :: v => tailAfterLastNL v
          | _ => none
      else none
    | [] => none
  | _ => none

/-- Head match for `\n\s*ARTICLE\s+\w+\s*\n` (pattern 4, article headers).
Backtracking collapses: `\s*` must end at the literal `A`; `\s+` must end at
a `\w` character, so it is the maximal nonempty whitespace run; `\w+` is the
maximal nonempty word run (whitespace and word characters are disjoint); the
trailing `\s*\n` is `tailAfterLastNL`. -/
def p4Match (s : List Char) : Option (List Char) :=
  match s with
  | '\n' :: t =>
    match consumeLit "ARTICLE".toList (t.dropWhile isPySpace) with
    | some u =>
      let w1 := u.takeWhile isPySpace
      if w1.isEmpty then none
      else
        let u2 := u.drop w1.length
        let ww := u2.takeWhile isWordChar
        if ww.isEmpty then none else tailAfterLastNL (u2.drop ww.length)
    | none => none
  | _ => none

/-- Leftmost match of a head-matcher: returns the text before the match and
the remainder after it. -/
def findSplit (m : List Char → Option (List Char)) :
    List Char → Option (List Char × List Char)
  | [] => none
  | c :: t =>
    match m (c :: t) with
    | some rest => some ([], rest)
    | none =>
      match findSplit m t with
      | some pr => some (c :: pr.1, pr.2)
      | none => none

/-- `re.split` by repeated leftmost matching.  All four matchers consume at
least the leading newline, so fuel `s.length + 1` always suffices. -/
def reSplitGo (m : List Char → Option (List Char)) : ℕ → List Char → List (List Char)
  | 0, s => [s]
  | Nat.succ f, s =>
    match findSplit m s with
    | none => [s]
    | some pr => pr.1 :: reSplitGo m f pr.2

/-- `re.split(pattern, text)` for a head-matcher. -/
def reSplit (m : List Char → Option (List Char)) (s : List Char) : List (List Char) :=
  reSplitGo m (s.length + 1) s

/-- The clause-building loop over `segments[1:]` with
`enumerate(..., 1)`: whitespace-only segments are skipped but the counter
still advances; `text` is the stripped segment truncated to 500 characters,
`full_text` the stripped segment. -/
def buildClauses : ℕ → List (List Char) → List Clause
  | _, [] => []
  | i, seg :: rest =>
    let st := pyStrip seg
    if st.isEmpty then buildClauses (i + 1) rest
    else
      { clause_id := i, title := "Clause " ++ toString i,
        text := String.mk (st.take 500), full_text := String.mk st }
        :: buildClauses (i + 1) rest

/-- Python `text.split('\n\n')`: split on each non-overlapping occurrence of
a double newline, scanning left to right. -/
def splitOnNN : List Char → List Char → List (List Char)
  | acc, '\n' :: '\n' :: t => acc.reverse :: splitOnNN [] t
  | acc, c :: t => splitOnNN (c :: acc) t
  | acc, [] => [acc.reverse]

/-- The fallback loop: the first 20 stripped nonempty paragraphs, enumerated
from 0 with `clause_id = i + 1`. -/
def buildParagraphs : ℕ → List (List Char) → List Clause
  | _, [] => []
  | i, p :: rest =>
    { clause_id := i + 1, title := "Paragraph " ++ toString (i + 1),
      text := String.mk (p.take 500), full_text := String.mk p }
      :: buildParagraphs (i + 1) rest

/-- The pattern loop of `segment_clauses`: try each structural pattern in
order, accept the first whose split yields more than 3 segments (building
clauses from `segments[1:]` and breaking), else return no clauses. -/
def tryStructural : List (List Char → Option (List Char)) → List Char → List Clause
  | [], _ => []
  | m :: ms, s =>
    let segs := reSplit m s
    if 3 < segs.length then buildClauses 1 (segs.drop 1) else tryStructural ms s

/-- The four structural delimiter patterns in source order. -/
def clause_patterns : List (List Char → Option (List Char)) :=
  [p1Match, p2Match, p3Match, p4Match]

/-- `DocumentProcessor.segment_clauses`: structural cascade, then the
paragraph fallback when no clauses were produced. -/
def segment_clauses (text : String) : List Clause :=
  let s := text.toList
  let clauses := tryStructural clause_patterns s
  if clauses.isEmpty then
    let paragraphs := ((splitOnNN [] s).map pyStrip).filter fun p => !p.isEmpty
    buildParagraphs 0 (paragraphs.take 20)
  else clauses

/-! ### `hindi_translator.py`: `normalize_text`

`re.sub` needs actual match spans, so each rewrite pattern is embedded as a
deterministic head-matcher returning the replacement and the remainder of
the leftmost-anchored match, with the greediness collapse justified next to
each function, plus a generic fuelled substitution scanner. -/

/-- The `hindi_numerals` table. -/
def hindi_numerals : List (Char × Char) :=
  [('०', '0'), ('१', '1'), ('२', '2'), ('३', '3'), ('४', '4'),
   ('५', '5'), ('६', '6'), ('७', '7'), ('८', '8'), ('९', '9')]

/-- The numeral-replacement loop.  The source runs `str.replace` once per
table entry; since the keys are distinct single characters and no value is a
key, that equals mapping each character through the table. -/
def replaceNumerals (s : List Char) : List Char :=
  s.map fun c =>
    match hindi_numerals.find? (fun p => p.1 = c) with
    | some p => p.2
    | none => c

/-- Generic `re.sub` scanner: at each position try the head-matcher; on a
match emit the replacement and continue after the match, else copy one
character.  Every matcher used consumes at least one character, so fuel
`s.length` suffices. -/
def subGo (m : List Char → Option (List Char × List Char)) :
    ℕ → List Char → List Char
  | 0, s => s
  | Nat.succ f, s =>
    match s with
    | [] => []
    | c :: t =>
      match m s with
      | some pr => pr.1 ++ subGo m f pr.2
      | none => c :: subGo m f t

/-- One full `re.sub` pass. -/
def pySub (m : List Char → Option (List Char × List Char)) (s : List Char) :
    List Char :=
  subGo m s.length s

/-- Head match for the date rewrite pattern: `(\d{1,2})`, a dash-or-slash
class, `(\d{1,2})`, a dash-or-slash class, `(\d{2,4})`, with replacement
`\1/\2/\3`.  Backtracking collapses: `\d{1,2}` succeeds only when the
maximal digit run has length 1 or 2 (a longer run leaves a digit where the
separator class is required, and so does every shorter try), and `\d{2,4}`
greedily takes the first `min(4, run)` digits of a run of length at least 2
with no following constraint.  Returns (replacement, remainder). -/
def dateMatchHead (s : List Char) : Option (List Char × List Char) :=
  let r1 := s.takeWhile isPyDigit
  if r1.isEmpty || 2 < r1.length then none
  else
    match s.drop r1.length with
    | c1 :: s2 =>
      if c1 = '-' || c1 = '/' then
        let r2 := s2.takeWhile isPyDigit
        if r2.isEmpty || 2 < r2.length then none
        else
          match s2.drop r2.length with
          | c2 :: s3 =>
            if c2 = '-' || c2 = '/' then
              let r3 := s3.takeWhile isPyDigit
              if r3.length < 2 then none
              else
                let g3 := r3.take 4
                some (r1 ++ '/' :: r2 ++ '/' :: g3, s3.drop g3.length)
            else none
          | [] => none
      else none
    | [] => none

/-- The literal `रुपये`. -/
def rupeeWord : List Char := "रुपये".toList

/-- Head match for `रुपये|₹` with replacement `INR` (the plain
currency-marker rule, listed in the source before the capture-group rule). -/
def markerMatchHead (s : List Char) : Option (List Char × List Char) :=
  match consumeLit rupeeWord s with
  | some rest => some ("INR".toList, rest)
  | none =>
    match s with
    | '₹' :: rest => some ("INR".toList, rest)
    | _ => none

/-- Greedy `(?:,\d{3})*`: repeatedly consume a comma followed by exactly
three digits; fewer iterations always fail the tail (they stop at a comma,
where neither `\s` nor the following literal can match), so greedy is
deterministic.  Returns (consumed, remainder). -/
def commaGroups : List Char → List Char × List Char
  | ',' :: a :: b :: c :: t =>
    if isPyDigit a && isPyDigit b && isPyDigit c then
      let pr := commaGroups t
      (',' :: a :: b :: c :: pr.1, pr.2)
    else ([], ',' :: a :: b :: c :: t)
  | s => ([], s)

/-- Head match for `(\d+(?:,\d{3})*)\s*रुपये` with replacement `INR \1`.
Backtracking collapses: a shorter `\d+` leaves a digit where `,`, `\s` and
`र` all fail, so `\d+` is the maximal nonempty digit run; `\s*` must end at
`र`, which is not whitespace, so it is the maximal whitespace run. -/
def numCapMatchHead (s : List Char) : Option (List Char × List Char) :=
  let r := s.takeWhile isPyDigit
  if r.isEmpty then none
  else
    let cg := commaGroups (s.drop r.length)
    let grp := r ++ cg.1
    let w := cg.2.takeWhile isPySpace
    match consumeLit rupeeWord (cg.2.drop w.length) with
    | some rest => some ("INR ".toList ++ grp, rest)
    | none => none

/-- Head match for `(\d+(?:\.\d+)?)\s*L` with replacement `\1%`, where `L`
is `प्रतिशत` or `फीसदी`.  Backtracking collapses: `\d+` is the maximal
nonempty digit run (shorter tries leave a digit where `.`, `\s` and the
literal all fail); the optional group is taken iff a dot followed by a digit
is present, with its inner `\d+` again maximal; `\s*` must end at the
literal's first character, which is not whitespace.  `fracPart` is the
optional group, returning (consumed, remainder). -/
def fracPart (s1 : List Char) : List Char × List Char :=
  match s1 with
  | '.' :: t =>
    let d2 := t.takeWhile isPyDigit
    if d2.isEmpty then ([], '.' :: t) else ('.' :: d2, t.drop d2.length)
  | _ => ([], s1)

def pctMatchHead (lit : List Char) (s : List Char) : Option (List Char × List Char) :=
  let r := s.takeWhile isPyDigit
  if r.isEmpty then none
  else
    let pr := fracPart (s.drop r.length)
    let w := pr.2.takeWhile isPySpace
    match consumeLit lit (pr.2.drop w.length) with
    | some rest => some ((r ++ pr.1) ++ ['%'], rest)
    | none => none

/-- The ordered `patterns` rewrites of `HindiToEnglishNormalizer.__init__`:
date, plain currency marker, capture-group currency, the two percentage
rules. -/
def pySubPatterns (s : List Char) : List Char :=
  let s1 := pySub dateMatchHead s
  let s2 := pySub markerMatchHead s1
  let s3 := pySub numCapMatchHead s2
  let s4 := pySub (pctMatchHead "प्रतिशत".toList) s3
  pySub (pctMatchHead "फीसदी".toList) s4

/-- The `legal_terms_dict` in Python dict iteration order.  The source
repeats the keys `करेगा` and `नवीनीकरण` with identical values; a repeated
key keeps its first position in a Python dict, so each appears once here. -/
def legal_terms_dict : List (String × String) :=
  [ ("समझौता", "agreement"), ("अनुबंध", "contract"), ("नियम", "terms"),
    ("शर्तें", "conditions"), ("पक्ष", "party"), ("पक्षकार", "party"),
    ("कंपनी", "company"), ("फर्म", "firm"), ("संस्था", "organization"),
    ("रोजगारी", "employment"),
    ("कर्मचारी", "employee"), ("व्यक्ति", "person"), ("निदेशक", "director"),
    ("प्रबंधक", "manager"), ("मालिक", "owner"), ("वरिष्ठ", "senior"),
    ("डेवलपर", "developer"),
    ("भुगतान", "payment"), ("राशि", "amount"), ("दायित्व", "liability"),
    ("जिम्मेदारी", "responsibility"), ("ब्याज", "interest"),
    ("जुर्माना", "penalty"), ("मुआवजा", "compensation"), ("हर्जाना", "damages"),
    ("वेतन", "salary"), ("मासिक", "monthly"),
    ("अधिकार", "right"), ("कर्तव्य", "duty"), ("बाध्य", "obliged"),
    ("शर्त", "condition"), ("प्रावधान", "provision"), ("धारा", "clause"),
    ("अनुच्छेद", "section"),
    ("समाप्ति", "termination"), ("रद्द", "cancel"), ("समाप्त", "terminate"),
    ("विस्तार", "extension"), ("नवीनीकरण", "renewal"), ("कार्य", "work"),
    ("करेगा", "shall"),
    ("अवधि", "period"), ("समय", "time"), ("मियाद", "term"),
    ("नोटिस", "notice"), ("सूचना", "notification"), ("अनिश्चित", "indefinite"),
    ("कानून", "law"), ("न्यायालय", "court"), ("न्यायाधीश", "judge"),
    ("फैसला", "judgment"), ("आदेश", "order"), ("विधि", "act"),
    ("संपत्ति", "property"), ("बौद्धिक संपदा", "intellectual property"),
    ("गोपनीय", "confidential"), ("गुप्त", "secret"),
    ("प्रकटीकरण", "disclosure"), ("गोपनीयता", "confidentiality"),
    ("जानकारी", "information"),
    ("होगा", "shall be"), ("होगी", "shall be"), ("करेगी", "shall"),
    ("नहीं करेगा", "shall not"), ("नहीं करेगी", "shall not"),
    ("करना होगा", "must"), ("करना चाहिए", "should"),
    ("रखेगा", "shall maintain"), ("बनाए रखेगा", "shall maintain"),
    ("हज़ार", "thousand"), ("लाख", "lakh"), ("करोड़", "crore"),
    ("प्रतिशत", "percent"), ("फीसदी", "percent"), ("प्रतिमाह", "per month"),
    ("एकतरफा", "unilateral"), ("विवेक", "discretion"), ("असीमित", "unlimited"),
    ("विदेशी", "foreign"), ("स्वचालित", "automatic") ]

/-- Case-insensitive literal consumption (`re.IGNORECASE`; ASCII folding,
Devanagari has no case). -/
def consumeLitCI : List Char → List Char → Option (List Char)
  | [], s => some s
  | _ :: _, [] => none
  | l :: ls, c :: cs => if c.toLower = l.toLower then consumeLitCI ls cs else none

/-- Wordness of an optional character (string edges count as non-word). -/
def isWordOpt : Option Char → Bool
  | none => false
  | some c => isWordChar c

/-- Head match at a position with known previous character for the pattern
`\b<term>\b` (case-insensitive): the literal must match and both ends must
be `\w`-boundaries.  `re.sub` scans the original text, so the previous
character fed to later positions is always an original character. -/
def termMatchAt (t : List Char) (prev : Option Char) (s : List Char) :
    Option (List Char) :=
  match consumeLitCI t s with
  | none => none
  | some rest =>
    if (isWordOpt prev != isWordOpt s.head?) &&
        (isWordOpt (s.take t.length).getLast? != isWordOpt rest.head?) then
      some rest
    else none

/-- The scanner for one dictionary-term substitution, tracking the previous
original character for the `\b` tests. -/
def termSubGo (t repl : List Char) : ℕ → Option Char → List Char → List Char
  | 0, _, s => s
  | Nat.succ f, prev, s =>
    match s with
    | [] => []
    | c :: rest =>
      match termMatchAt t prev s with
      | some rest2 => repl ++ termSubGo t repl f (s.take t.length).getLast? rest2
      | none => c :: termSubGo t repl f (some c) rest

/-- The dictionary-replacement loop: one whole-word case-insensitive
substitution per `legal_terms_dict` entry, in dict order. -/
def applyTermsDict (s : List Char) : List Char :=
  legal_terms_dict.foldl
    (fun acc p => termSubGo p.1.toList p.2.toList acc.length none acc) s

/-- `HindiToEnglishNormalizer.normalize_text`: empty text is returned
unchanged; otherwise numerals, then the ordered pattern rewrites, then the
dictionary substitutions. -/
def normalize_text (text : String) : String :=
  if text.isEmpty then text
  else String.mk (applyTermsDict (pySubPatterns (replaceNumerals text.toList)))

/-! ### `language_detector.py`: `detect_language` -/

/-- The `hindi_keywords` set of `LanguageDetector.__init__` (the last two
entries contain a literal U+FFFD replacement character in the source). -/
def hindi_keywords : List String :=
  ["समझौता", "अनुबंध", "नियम", "शर्तें", "पक्ष", "कंपनी", "कर्मचारी",
   "भुगतान", "दायित्व", "अधिकार", "कानून", "न्यायालय", "मुआवजा",
   "समाप्ति", "नोटिस", "अवधि", "राशि", "ब्याज", "�ंड", "�ोपनीय"]

/-- The `english_keywords` set. -/
def english_keywords : List String :=
  ["agreement", "contract", "terms", "conditions", "party", "company",
   "employee", "payment", "liability", "right", "law", "court",
   "compensation", "termination", "notice", "period", "amount", "interest",
   "penalty", "confidential"]

/-- `re.findall(r'\b\w+\b', s)`: the maximal runs of word characters.  The
first argument accumulates the current run in reverse. -/
def wordsOfAux : List Char → List Char → List (List Char)
  | run, [] => if run.isEmpty then [] else [run.reverse]
  | run, c :: t =>
    if isWordChar c then wordsOfAux (c :: run) t
    else if run.isEmpty then wordsOfAux [] t
    else run.reverse :: wordsOfAux [] t

/-- Word tokenization of a text. -/
def wordsOf (s : List Char) : List (List Char) := wordsOfAux [] s

/-- The dictionary returned by `LanguageDetector.detect_language`.  The
source returns a four-key dict for empty or whitespace-only input and a
seven-key dict otherwise; the constructors mirror the two `return`
statements. -/
inductive LanguageProfile where
  | short (primary_language : String) (is_mixed : Bool)
      (hindi_ratio english_ratio : ℚ)
  | full (primary_language : String) (is_mixed : Bool)
      (hindi_ratio english_ratio : ℚ)
      (hindi_word_count english_word_count total_words : ℕ)
  deriving Repr, DecidableEq

/-- `LanguageDetector.detect_language`.  Ratios are guarded divisions
(`x / total_chars if total_chars > 0 else 0` in the source), embedded with
`pyDiv` inside the same guard. -/
def detect_language (text : String) : Option LanguageProfile :=
  let s := text.toList
  if text.isEmpty || (pyStrip s).isEmpty then
    some (LanguageProfile.short "unknown" false 0 0)
  else
    let hindi_chars : ℕ := (s.filter isDevanagari).length
    let total_chars : ℕ := (s.filter fun c => !isPySpace c).length
    let words := wordsOf (pyLower s)
    let hindi_words :=
      (words.filter fun w => hindi_keywords.any fun k => k.toList == w).length
    let english_words :=
      (words.filter fun w => english_keywords.any fun k => k.toList == w).length
    let hr? : Option ℚ :=
      if 0 < total_chars then pyDiv (hindi_chars : ℚ) (total_chars : ℚ) else some 0
    let er? : Option ℚ :=
      if 0 < total_chars then
        pyDiv ((total_chars : ℚ) - (hindi_chars : ℚ)) (total_chars : ℚ)
      else some 0
    match hr?, er? with
    | some hindi_ratio, some english_ratio =>
      let primary_language :=
        if 3 / 10 < hindi_ratio then "hindi"
        else if 7 / 10 < english_ratio then "english"
        else "mixed"
      let is_mixed := 1 / 10 < hindi_ratio && 1 / 10 < english_ratio
      some (LanguageProfile.full primary_language is_mixed
        (pyRound3 hindi_ratio) (pyRound3 english_ratio)
        hindi_words english_words words.length)
    | _, _ => none

/-! ### Shared helper lemmas -/

/-- The classifier's if/elif chain equals the spec's ordered first-match
rule. -/
theorem classify_eq_spec (t : String) : classify_clause_type t = classifySpec t := by
  unfold classify_clause_type classifySpec classifierTaxonomy
  simp only [firstMatching, List.any_cons, List.any_nil, Bool.or_false, Bool.or_assoc]

/-- `firstMatching` returns "General" or a category of the taxonomy. -/
theorem firstMatching_mem (l : List Char) :
    ∀ cats : List (String × List String),
      firstMatching l cats ∈ "General" :: cats.map Prod.fst := by
  intro cats
  induction cats with
  | nil => simp [firstMatching]
  | cons c cs ih =>
    unfold firstMatching
    split
    · simp
    · simp only [List.map_cons, List.mem_cons] at ih ⊢
      tauto

/-- `score_to_level` always returns one of the three labels. -/
theorem score_to_level_mem (q : ℚ) : score_to_level q ∈ ["High", "Medium", "Low"] := by
  unfold score_to_level
  split
  · simp
  · split <;> simp

/-- A nonzero denominator makes `pyDiv` succeed. -/
theorem pyDiv_eq_some (a b : ℚ) (h : b ≠ 0) : pyDiv a b = some (a / b) := by
  unfold pyDiv
  simp [h]

/-- The guarded divisions of `detect_language` always succeed. -/
theorem detect_language_total (text : String) : (detect_language text).isSome := by
  unfold detect_language
  by_cases h0 : text.isEmpty = true ∨ pyStrip text.data = []
  · simp [String.toList, h0]
  · by_cases htc : 0 < (text.data.filter fun c => !isPySpace c).length
    · have hne : (((text.data.filter fun c => !isPySpace c).length : ℕ) : ℚ) ≠ 0 := by
        exact_mod_cast Nat.pos_iff_ne_zero.mp htc
      simp [String.toList, h0, htc, pyDiv_eq_some _ _ hne]
    · simp [String.toList, h0, htc]

/-- The full-shape value computed by `calculate_composite_risk` on a
nonempty input. -/
theorem composite_full_eq (l : List ClauseAnalysis) (h : l ≠ []) :
    calculate_composite_risk l =
      (let avg : ℚ := (((l.map fun a => a.risk_score).sum : ℤ) : ℚ) / (l.length : ℚ)
       some (CompositeRisk.full (score_to_level (avg * 2)) (pyRound1 avg)
        (l.filter fun c => c.risk_level == "High").length
        (l.filter fun c => c.risk_level == "Medium").length
        l.length
        (l.filter fun c => c.risk_level == "High").length
        (l.filter fun c => c.risk_level == "Medium").length
        ((l.length : ℤ) - ((l.filter fun c => c.risk_level == "High").length : ℤ)
          - ((l.filter fun c => c.risk_level == "Medium").length : ℤ)))) := by
  have hne : l.isEmpty = false := by
    cases l with
    | nil => exact absurd rfl h
    | cons a t => rfl
  have hlen : ((l.length : ℕ) : ℚ) ≠ 0 := by
    have : l.length ≠ 0 := by
      cases l with
      | nil => exact absurd rfl h
      | cons a t => simp
    exact_mod_cast this
  unfold calculate_composite_risk pyDiv
  simp [hne, hlen]

/-- The emptiness guard protects the division of
`calculate_composite_risk`. -/
theorem composite_total (l : List ClauseAnalysis) :
    (calculate_composite_risk l).isSome := by
  by_cases h : l = []
  · subst h; rfl
  · rw [composite_full_eq l h]; rfl

/-! ### Helper lemmas about segmentation (claim C10)

The four structural patterns end by greedily consuming whitespace (patterns
1 and 2) or everything through the last newline of a whitespace run
(patterns 3 and 4), and every match starts with a newline.  Consequently a
segment preceding a further match always contains a non-whitespace
character, so only the final segment of a split can be whitespace-only and
the clause ids are always contiguous. -/

theorem length_dropWhile_le (p : Char → Bool) (l : List Char) :
    (l.dropWhile p).length ≤ l.length := by
  induction l with
  | nil => simp
  | cons c t ih =>
    by_cases h : p c
    · simpa [List.dropWhile, h] using Nat.le_succ_of_le ih
    · simp [List.dropWhile, h]

theorem drop_length_takeWhile (p : Char → Bool) (l : List Char) :
    l.drop (l.takeWhile p).length = l.dropWhile p := by
  induction l with
  | nil => simp
  | cons c t ih =>
    by_cases h : p c
    · simpa [List.takeWhile, List.dropWhile, h] using ih
    · simp [List.takeWhile, List.dropWhile, h]

theorem dropWhile_head_not (p : Char → Bool) (l : List Char) {c : Char}
    {t : List Char} (h : l.dropWhile p = c :: t) : p c = false := by
  induction l with
  | nil => simp at h
  | cons a u ih =>
    by_cases ha : p a
    · exact ih (by simpa [List.dropWhile, ha] using h)
    · rw [List.dropWhile_cons_of_neg (by simpa using ha)] at h
      cases h
      simpa using ha

theorem takeWhile_all_append {p : Char → Bool} {a : List Char}
    (h : ∀ c ∈ a, p c = true) (x : List Char) :
    (a ++ x).takeWhile p = a ++ x.takeWhile p := by
  induction a with
  | nil => simp
  | cons c t ih =>
    have hc : p c = true := h c (by simp)
    simp only [List.cons_append, List.takeWhile_cons_of_pos hc]
    rw [ih fun d hd => h d (by simp [hd])]

theorem consumeLit_length_le :
    ∀ {l s u : List Char}, consumeLit l s = some u → u.length ≤ s.length := by
  intro l
  induction l with
  | nil =>
    intro s u h
    simp only [consumeLit, Option.some.injEq] at h
    exact h ▸ le_refl _
  | cons a as ih =>
    intro s u h
    cases s with
    | nil => simp [consumeLit] at h
    | cons c cs =>
      unfold consumeLit at h
      split at h
      · exact Nat.le_succ_of_le (ih h)
      · simp at h

/-- No newline occurs in the leading whitespace run. -/
def noLeadingNL (r : List Char) : Prop := '\n' ∉ r.takeWhile isPySpace

theorem noLeadingNL_dropWhile (l : List Char) :
    noLeadingNL (l.dropWhile isPySpace) := by
  unfold noLeadingNL
  cases h : l.dropWhile isPySpace with
  | nil => simp
  | cons c t =>
    have := dropWhile_head_not isPySpace l h
    simp [List.takeWhile, this]

theorem tailAfterLastNL_none : ∀ {s : List Char}, tailAfterLastNL s = none → noLeadingNL s := by
  intro s
  induction s with
  | nil => intro h; simp [noLeadingNL]
  | cons c t ih =>
    intro h
    unfold tailAfterLastNL at h
    split at h
    · simp at h
    · split at h
      next hc hw =>
        have hnl := ih h
        unfold noLeadingNL at hnl ⊢
        rw [List.takeWhile_cons_of_pos hw]
        simp only [List.mem_cons]
        rintro (hh | hh)
        · exact hc hh.symm
        · exact hnl hh
      next hc hw =>
        unfold noLeadingNL
        rw [List.takeWhile_cons_of_neg (by simpa using hw)]
        simp

theorem tailAfterLastNL_good : ∀ {s r : List Char}, tailAfterLastNL s = some r → noLeadingNL r := by
  intro s
  induction s with
  | nil => intro r h; simp [tailAfterLastNL] at h
  | cons c t ih =>
    intro r h
    unfold tailAfterLastNL at h
    split at h
    · cases hin : tailAfterLastNL t with
      | some r2 =>
        rw [hin] at h
        simp only [Option.getD_some, Option.some.injEq] at h
        subst h
        exact ih hin
      | none =>
        rw [hin] at h
        simp only [Option.getD_none, Option.some.injEq] at h
        subst h
        exact tailAfterLastNL_none hin
    · split at h
      · exact ih h
      · simp at h

theorem tailAfterLastNL_lt : ∀ {s r : List Char}, tailAfterLastNL s = some r → r.length < s.length := by
  intro s
  induction s with
  | nil => intro r h; simp [tailAfterLastNL] at h
  | cons c t ih =>
    intro r h
    unfold tailAfterLastNL at h
    split at h
    · cases hin : tailAfterLastNL t with
      | some r2 =>
        rw [hin] at h
        simp only [Option.getD_some, Option.some.injEq] at h
        subst h
        exact Nat.lt_succ_of_lt (ih hin)
      | none =>
        rw [hin] at h
        simp only [Option.getD_none, Option.some.injEq] at h
        subst h
        exact Nat.lt_succ_self _
    · split at h
      · exact Nat.lt_succ_of_lt (ih h)
      · simp at h

/-- The properties of a structural head-matcher that make clause ids
contiguous: a match starts with a newline, consumes at least one character,
and leaves a remainder with no newline in its leading whitespace run. -/
def MatcherOK (m : List Char → Option (List Char)) : Prop :=
  ∀ s r, m s = some r →
    (∃ t, s = '\n' :: t) ∧ r.length < s.length ∧ noLeadingNL r

theorem p1Match_ok : MatcherOK p1Match := by
  intro s r h
  simp only [p1Match] at h
  split at h
  next t =>
    refine ⟨⟨t, rfl⟩, ?_⟩
    split at h
    · simp at h
    · split at h
      next v heq =>
        split at h
        · simp at h
        · rw [drop_length_takeWhile] at h
          simp only [Option.some.injEq] at h
          subst h
          constructor
          · have h1 : (v.dropWhile isPySpace).length ≤ v.length :=
              length_dropWhile_le _ _
            have h3 : ('.' :: v).length =
                (t.dropWhile isPySpace).length -
                  ((t.dropWhile isPySpace).takeWhile isPyDigit).length := by
              rw [← heq, List.length_drop]
            have h4 : (t.dropWhile isPySpace).length ≤ t.length :=
              length_dropWhile_le _ _
            simp only [List.length_cons] at h3 ⊢
            omega
          · exact noLeadingNL_dropWhile v
      next => simp at h
  next => simp at h

theorem p2Match_ok : MatcherOK p2Match := by
  intro s r h
  simp only [p2Match] at h
  split at h
  next t =>
    refine ⟨⟨t, rfl⟩, ?_⟩
    split at h
    next c v heq =>
      split at h
      · split at h
        · simp at h
        · rw [drop_length_takeWhile] at h
          simp only [Option.some.injEq] at h
          subst h
          constructor
          · have h1 : (v.dropWhile isPySpace).length ≤ v.length :=
              length_dropWhile_le _ _
            have h3 : (t.dropWhile isPySpace).length = v.length + 3 := by
              rw [heq]; simp
            have h4 : (t.dropWhile isPySpace).length ≤ t.length :=
              length_dropWhile_le _ _
            simp only [List.length_cons]
            omega
          · exact noLeadingNL_dropWhile v
      · simp at h
    next => simp at h
  next => simp at h

theorem p3Match_ok : MatcherOK p3Match := by
  intro s r h
  simp only [p3Match] at h
  split at h
  next t =>
    refine ⟨⟨t, rfl⟩, ?_⟩
    split at h
    next c u heq =>
      split at h
      · split at h
        · simp at h
        · split at h
          next v heq2 =>
            refine ⟨?_, tailAfterLastNL_good h⟩
            have h0 : (':' :: v).length = u.length - (u.takeWhile isUpperOrSpace).length := by
              rw [← heq2, List.length_drop]
            have h1 : (t.dropWhile isPySpace).length = u.length + 1 := by
              rw [heq]; simp
            have h4 : (t.dropWhile isPySpace).length ≤ t.length :=
              length_dropWhile_le _ _
            have h5 := tailAfterLastNL_lt h
            simp only [List.length_cons] at h0 h5 ⊢
            omega
          next => simp at h
      · simp at h
    next => simp at h
  next => simp at h

theorem p4Match_ok : MatcherOK p4Match := by
  intro s r h
  simp only [p4Match] at h
  split at h
  next t =>
    refine ⟨⟨t, rfl⟩, ?_⟩
    split at h
    next u heq =>
      split at h
      · simp at h
      · split at h
        · simp at h
        · refine ⟨?_, tailAfterLastNL_good h⟩
          have h5 := tailAfterLastNL_lt h
          have h1 : ((u.drop (u.takeWhile isPySpace).length).drop
              ((u.drop (u.takeWhile isPySpace).length).takeWhile isWordChar).length).length ≤
              u.length := by
            have a1 := List.length_drop ((u.takeWhile isPySpace).length) u
            have a2 := List.length_drop
              (((u.drop (u.takeWhile isPySpace).length).takeWhile isWordChar).length)
              (u.drop (u.takeWhile isPySpace).length)
            omega
          have h3 : u.length ≤ (t.dropWhile isPySpace).length :=
            consumeLit_length_le heq
          have h4 : (t.dropWhile isPySpace).length ≤ t.length :=
            length_dropWhile_le _ _
          simp only [List.length_cons]
          omega
    next => simp at h
  next => simp at h

theorem mem_dropWhile_of_mem {p : Char → Bool} :
    ∀ {l : List Char} {c : Char}, c ∈ l → p c = false → c ∈ l.dropWhile p := by
  intro l
  induction l with
  | nil => intro c hc; simp at hc
  | cons a t ih =>
    intro c hc hpc
    by_cases ha : p a
    · rw [List.dropWhile_cons_of_pos ha]
      rcases List.mem_cons.mp hc with rfl | hmem
      · rw [ha] at hpc; cases hpc
      · exact ih hmem hpc
    · rwa [List.dropWhile_cons_of_neg (by simpa using ha)]

theorem dropWhile_ne_nil_of_mem {p : Char → Bool} {l : List Char} {c : Char}
    (hc : c ∈ l) (hpc : p c = false) : l.dropWhile p ≠ [] := by
  intro hnil
  have := mem_dropWhile_of_mem hc hpc
  rw [hnil] at this
  simp at this

/-- A list whose strip is empty is all whitespace. -/
theorem pyStrip_nil_all {l : List Char} (h : pyStrip l = []) :
    ∀ c ∈ l, isPySpace c = true := by
  intro c hc
  by_contra hns
  have hns2 : isPySpace c = false := by
    cases hx : isPySpace c
    · rfl
    · exact absurd hx hns
  have h1 : c ∈ l.dropWhile isPySpace := mem_dropWhile_of_mem hc hns2
  have h2 : c ∈ (l.dropWhile isPySpace).reverse := List.mem_reverse.mpr h1
  have h3 := dropWhile_ne_nil_of_mem h2 hns2
  unfold pyStrip at h
  rw [List.reverse_eq_nil_iff] at h
  exact h3 h

theorem findSplit_decomp {m : List Char → Option (List Char)} :
    ∀ {s : List Char} {pr : List Char × List Char}, findSplit m s = some pr →
      ∃ q, s = pr.1 ++ q ∧ m q = some pr.2 := by
  intro s
  induction s with
  | nil => intro pr h; simp [findSplit] at h
  | cons c t ih =>
    intro pr h
    unfold findSplit at h
    split at h
    next rest hm =>
      simp only [Option.some.injEq] at h
      subst h
      exact ⟨c :: t, rfl, hm⟩
    next hm =>
      split at h
      next pr2 hf =>
        simp only [Option.some.injEq] at h
        subst h
        obtain ⟨q, hq, hmq⟩ := ih hf
        exact ⟨q, by simp [hq], hmq⟩
      next => simp at h

theorem findSplit_lt {m : List Char → Option (List Char)} (hm : MatcherOK m)
    {s : List Char} {pr : List Char × List Char} (h : findSplit m s = some pr) :
    pr.2.length < s.length := by
  obtain ⟨q, hq, hmq⟩ := findSplit_decomp h
  have h1 := (hm q pr.2 hmq).2.1
  have : s.length = pr.1.length + q.length := by simp [hq]
  omega

/-- The text before a further match always strips to a nonempty result:
it would otherwise be an all-whitespace prefix followed by the newline
starting the match, putting a newline into the leading whitespace run. -/
theorem findSplit_strip {m : List Char → Option (List Char)} (hm : MatcherOK m)
    {s : List Char} (hs : noLeadingNL s) {pr : List Char × List Char}
    (h : findSplit m s = some pr) : pyStrip pr.1 ≠ [] := by
  intro hstrip
  obtain ⟨q, hq, hmq⟩ := findSplit_decomp h
  obtain ⟨⟨t2, ht2⟩, _, _⟩ := hm q pr.2 hmq
  have hall : ∀ c ∈ pr.1, isPySpace c = true := pyStrip_nil_all hstrip
  have : s.takeWhile isPySpace = pr.1 ++ ('\n' :: t2).takeWhile isPySpace := by
    rw [hq, ht2]
    exact takeWhile_all_append hall _
  have hnl : '\n' ∈ s.takeWhile isPySpace := by
    rw [this, ht2.symm]
    rw [ht2]
    have : ('\n' :: t2).takeWhile isPySpace = '\n' :: t2.takeWhile isPySpace :=
      List.takeWhile_cons_of_pos (by decide)
    rw [this]
    simp
  exact hs hnl

theorem reSplitGo_ne_nil (m : List Char → Option (List Char)) :
    ∀ (fuel : ℕ) (s : List Char), reSplitGo m fuel s ≠ [] := by
  intro fuel s
  cases fuel with
  | zero => simp [reSplitGo]
  | succ f =>
    unfold reSplitGo
    split <;> simp

/-- In a split of a matcher remainder, every segment except the last
contains a non-whitespace character. -/
theorem reSplitGo_nonlast {m : List Char → Option (List Char)} (hm : MatcherOK m) :
    ∀ (fuel : ℕ) (s : List Char), noLeadingNL s →
      ∀ seg ∈ (reSplitGo m fuel s).dropLast, pyStrip seg ≠ [] := by
  intro fuel
  induction fuel with
  | zero => intro s hs seg hseg; simp [reSplitGo] at hseg
  | succ f ih =>
    intro s hs seg hseg
    unfold reSplitGo at hseg
    split at hseg
    · simp at hseg
    next pr hf =>
      rw [List.dropLast_cons_of_ne_nil (reSplitGo_ne_nil m f pr.2)] at hseg
      rcases List.mem_cons.mp hseg with rfl | hseg2
      · exact findSplit_strip hm hs hf
      · obtain ⟨q, hq, hmq⟩ := findSplit_decomp hf
        exact ih pr.2 (hm q pr.2 hmq).2.2 seg hseg2

/-- Non-last segments of `segments[1:]` contain a non-whitespace
character (the zeroth segment is dropped by the source). -/
theorem reSplit_drop_one {m : List Char → Option (List Char)} (hm : MatcherOK m)
    (s : List Char) :
    ∀ seg ∈ ((reSplit m s).drop 1).dropLast, pyStrip seg ≠ [] := by
  intro seg hseg
  unfold reSplit reSplitGo at hseg
  split at hseg
  · simp at hseg
  next pr hf =>
    simp only [List.drop_succ_cons, List.drop_zero] at hseg
    obtain ⟨q, hq, hmq⟩ := findSplit_decomp hf
    exact reSplitGo_nonlast hm _ pr.2 (hm q pr.2 hmq).2.2 seg hseg

theorem buildClauses_ids :
    ∀ (l : List (List Char)) (n : ℕ),
      (∀ seg ∈ l.dropLast, pyStrip seg ≠ []) →
      (buildClauses n l).map (fun c => c.clause_id) =
        List.range' n (buildClauses n l).length := by
  intro l
  induction l with
  | nil => intro n _; simp [buildClauses]
  | cons seg rest ih =>
    intro n hgood
    simp only [buildClauses]
    split
    next hempty =>
      cases rest with
      | nil => simp [buildClauses]
      | cons r2 rs =>
        exfalso
        have hmem : seg ∈ (seg :: r2 :: rs).dropLast := by
          rw [List.dropLast_cons_of_ne_nil (by simp)]
          simp
        exact hgood seg hmem (List.isEmpty_iff.mp hempty)
    next hempty =>
      have hrest : ∀ s2 ∈ rest.dropLast, pyStrip s2 ≠ [] := by
        intro s2 hs2
        cases rest with
        | nil => simp at hs2
        | cons r2 rs =>
          refine hgood s2 ?_
          rw [List.dropLast_cons_of_ne_nil (by simp)]
          exact List.mem_cons_of_mem _ hs2
      simp only [List.map_cons, List.length_cons, ih (n + 1) hrest]
      rw [List.range'_succ]

theorem buildParagraphs_ids :
    ∀ (l : List (List Char)) (n : ℕ),
      (buildParagraphs n l).map (fun c => c.clause_id) =
        List.range' (n + 1) (buildParagraphs n l).length := by
  intro l
  induction l with
  | nil => intro n; simp [buildParagraphs]
  | cons p rest ih =>
    intro n
    unfold buildParagraphs
    simp only [List.map_cons, List.length_cons, ih (n + 1)]
    rw [List.range'_succ]

/-- All four structural matchers satisfy the bundle. -/
theorem clause_patterns_ok : ∀ m ∈ clause_patterns, MatcherOK m := by
  intro m hm
  unfold clause_patterns at hm
  simp only [List.mem_cons, List.not_mem_nil, or_false] at hm
  rcases hm with h | h | h | h
  · exact h ▸ p1Match_ok
  · exact h ▸ p2Match_ok
  · exact h ▸ p3Match_ok
  · exact h ▸ p4Match_ok

theorem tryStructural_ids :
    ∀ (ms : List (List Char → Option (List Char))),
      (∀ m ∈ ms, MatcherOK m) → ∀ s : List Char,
      (tryStructural ms s).map (fun c => c.clause_id) =
        List.range' 1 (tryStructural ms s).length := by
  intro ms
  induction ms with
  | nil => intro _ s; simp [tryStructural]
  | cons m rest ih =>
    intro hok s
    simp only [tryStructural]
    split
    · exact buildClauses_ids _ 1 (reSplit_drop_one (hok m (by simp)) s)
    · exact ih (fun m2 hm2 => hok m2 (List.mem_cons_of_mem _ hm2)) s

/-- Clause ids returned by `segment_clauses` are always the contiguous range
1..n: whitespace-only segments can only occur in final position, so the
enumeration counter never skips past a kept clause. -/
theorem segment_ids (text : String) :
    (segment_clauses text).map (fun c => c.clause_id) =
      List.range' 1 (segment_clauses text).length := by
  simp only [segment_clauses]
  split
  · exact buildParagraphs_ids _ 0
  · exact tryStructural_ids clause_patterns clause_patterns_ok text.toList

/-! ### Helper lemmas about normalization (claims C7, C8)

On Devanagari-free text the normalizer reduces to the date rewrite followed
by the rupee-sign replacement; the remaining rules and the whole dictionary
pass need a Devanagari character to fire.  Idempotence then follows from the
date rewrite being idempotent (its replacement only turns dashes into
slashes, which the pattern treats like dashes) and from the rupee-sign
replacement inserting only letters, which the date pattern cannot match. -/

theorem subGo_nil (m : List Char → Option (List Char × List Char)) :
    ∀ f, subGo m f [] = [] := by
  intro f; cases f <;> rfl

theorem subGo_length {m : List Char → Option (List Char × List Char)}
    (hm : ∀ s pr, m s = some pr → pr.1.length + pr.2.length = s.length) :
    ∀ (f : ℕ) (s : List Char), (subGo m f s).length = s.length := by
  intro f
  induction f with
  | zero => intro s; rfl
  | succ f ih =>
    intro s
    unfold subGo
    cases s with
    | nil => rfl
    | cons c t =>
      cases hms : m (c :: t) with
      | some pr =>
        have := hm _ _ hms
        simp only [List.length_append, ih pr.2, List.length_cons] at this ⊢
        omega
      | none => simp [ih t]

theorem subGo_eq_of_le {m : List Char → Option (List Char × List Char)}
    (hm : ∀ s pr, m s = some pr → pr.2.length < s.length) :
    ∀ (f g : ℕ) (s : List Char), s.length ≤ f → s.length ≤ g →
      subGo m f s = subGo m g s := by
  intro f
  induction f with
  | zero =>
    intro g s hf _
    have : s = [] := List.length_eq_zero.mp (Nat.le_zero.mp hf)
    subst this
    rw [subGo_nil, subGo_nil]
  | succ f ih =>
    intro g s hf hg
    cases s with
    | nil => rw [subGo_nil, subGo_nil]
    | cons c t =>
      cases g with
      | zero => simp at hg
      | succ g2 =>
        unfold subGo
        cases hms : m (c :: t) with
        | some pr =>
          have hlt := hm _ _ hms
          simp only [List.length_cons] at hf hg hlt
          dsimp only
          rw [ih g2 pr.2 (by omega) (by omega)]
        | none =>
          simp only [List.length_cons] at hf hg
          dsimp only
          rw [ih g2 t (by omega) (by omega)]

theorem subGo_id_of_none {P : List Char → Prop}
    {m : List Char → Option (List Char × List Char)}
    (hm : ∀ s, P s → m s = none) (hstep : ∀ c t, P (c :: t) → P t) :
    ∀ (f : ℕ) (s : List Char), P s → subGo m f s = s := by
  intro f
  induction f with
  | zero => intro s _; rfl
  | succ f ih =>
    intro s hP
    unfold subGo
    cases s with
    | nil => rfl
    | cons c t =>
      rw [hm _ hP]
      dsimp only
      rw [ih t (hstep c t hP)]

/-- No character of the Devanagari block occurs in the string. -/
def DevFree (s : List Char) : Prop := ∀ c ∈ s, isDevanagari c = false

theorem DevFree.mono {s t : List Char} (h : DevFree s) (hsub : ∀ c ∈ t, c ∈ s) :
    DevFree t :=
  fun c hc => h c (hsub c hc)

theorem DevFree.tail {c : Char} {t : List Char} (h : DevFree (c :: t)) : DevFree t :=
  h.mono fun d hd => List.mem_cons_of_mem c hd

theorem DevFree.append_iff {a b : List Char} :
    DevFree (a ++ b) ↔ DevFree a ∧ DevFree b := by
  constructor
  · intro h
    exact ⟨h.mono fun c hc => List.mem_append_left _ hc,
           h.mono fun c hc => List.mem_append_right _ hc⟩
  · rintro ⟨ha, hb⟩ c hc
    rcases List.mem_append.mp hc with h | h
    · exact ha c h
    · exact hb c h

theorem devanagari_le_toNat {c : Char} (h : isDevanagari c = true) :
    2304 ≤ c.toNat := by
  unfold isDevanagari at h
  rcases Bool.and_eq_true_iff.mp h with ⟨h1, _⟩
  have h2 : 'ऀ' ≤ c := by simpa using h1
  rw [Char.le_def, UInt32.le_def, BitVec.le_def] at h2
  exact h2

theorem toLower_of_devanagari {c : Char} (h : isDevanagari c = true) :
    c.toLower = c := by
  have := devanagari_le_toNat h
  unfold Char.toLower
  rw [if_neg (by omega)]

theorem toLower_devfree {c : Char} (h : isDevanagari c = false) :
    isDevanagari c.toLower = false := by
  unfold Char.toLower
  dsimp only
  split
  next hn =>
    obtain ⟨h1, h2⟩ := hn
    have hc : c = Char.ofNat c.toNat := (Char.ofNat_toNat c).symm
    set n := c.toNat with hnn
    interval_cases n <;> decide
  next => exact h

theorem consumeLit_head {l : Char} {ls s r : List Char}
    (h : consumeLit (l :: ls) s = some r) : ∃ t, s = l :: t := by
  cases s with
  | nil => simp [consumeLit] at h
  | cons c cs =>
    unfold consumeLit at h
    split at h
    next hc => exact ⟨cs, by rw [hc]⟩
    next => simp at h

theorem consumeLitCI_head {l : Char} {ls s r : List Char}
    (h : consumeLitCI (l :: ls) s = some r) :
    ∃ c t, s = c :: t ∧ c.toLower = l.toLower := by
  cases s with
  | nil => simp [consumeLitCI] at h
  | cons c cs =>
    unfold consumeLitCI at h
    split at h
    next hc => exact ⟨c, cs, rfl, hc⟩
    next => simp at h

theorem commaGroups_snd_subset : ∀ (s : List Char), ∀ x ∈ (commaGroups s).2, x ∈ s := by
  intro s
  induction s using commaGroups.induct with
  | case1 a b c t hd ih =>
    intro x hx
    rw [commaGroups, if_pos hd] at hx
    exact .tail _ (.tail _ (.tail _ (.tail _ (ih x hx))))
  | case2 a b c t hd =>
    intro x hx
    rw [commaGroups, if_neg hd] at hx
    exact hx
  | case3 s hne =>
    intro x hx
    rw [commaGroups.eq_def] at hx
    split at hx
    next a b c t => exact absurd rfl (hne a b c t)
    next => exact hx

theorem consumeLit_devanagari_none {l0 : Char} {lt x : List Char}
    (hl : isDevanagari l0 = true) (hx : DevFree x) :
    consumeLit (l0 :: lt) x = none := by
  cases hcl : consumeLit (l0 :: lt) x with
  | none => rfl
  | some u =>
    obtain ⟨t, rfl⟩ := consumeLit_head hcl
    have := hx l0 (by simp)
    rw [hl] at this
    cases this

theorem rupeeWord_eq : rupeeWord = ['र', 'ु', 'प', 'य', 'े'] := by decide

theorem consumeLit_rupee_none {x : List Char} (hx : DevFree x) :
    consumeLit rupeeWord x = none := by
  rw [rupeeWord_eq]
  exact consumeLit_devanagari_none (by decide) hx

theorem numCap_devfree_none {s : List Char} (h : DevFree s) :
    numCapMatchHead s = none := by
  unfold numCapMatchHead
  dsimp only
  split
  · rfl
  · rw [consumeLit_rupee_none (h.mono fun c hc =>
      List.drop_subset _ _
        (commaGroups_snd_subset _ c (List.drop_subset _ _ hc)))]

theorem fracPart_snd_subset : ∀ (s1 : List Char), ∀ x ∈ (fracPart s1).2, x ∈ s1 := by
  intro s1
  unfold fracPart
  split
  next t =>
    dsimp only
    split
    · intro x hx; exact hx
    · intro x hx
      exact List.mem_cons_of_mem _ (List.drop_subset _ _ hx)
  next =>
    intro x hx
    exact hx

theorem pct_devfree_none {l0 : Char} {lt : List Char} (hl : isDevanagari l0 = true) :
    ∀ {s : List Char}, DevFree s → pctMatchHead (l0 :: lt) s = none := by
  intro s h
  unfold pctMatchHead
  dsimp only
  split
  · rfl
  · rw [consumeLit_devanagari_none hl (h.mono fun c hc =>
      List.drop_subset _ _
        (fracPart_snd_subset _ c (List.drop_subset _ _ hc)))]

theorem termMatchAt_devfree_none {l0 : Char} {lt : List Char} {prev : Option Char}
    (hl : isDevanagari l0 = true) :
    ∀ {s : List Char}, DevFree s → termMatchAt (l0 :: lt) prev s = none := by
  intro s h
  unfold termMatchAt
  cases hcl : consumeLitCI (l0 :: lt) s with
  | none => rfl
  | some rest =>
    exfalso
    obtain ⟨c, t, rfl, hlow⟩ := consumeLitCI_head hcl
    rw [toLower_of_devanagari hl] at hlow
    have hc := h c (by simp)
    have h2 := toLower_devfree hc
    rw [hlow, hl] at h2
    cases h2

theorem termSubGo_devfree_id {l0 : Char} {lt repl : List Char}
    (hl : isDevanagari l0 = true) :
    ∀ (f : ℕ) (prev : Option Char) (s : List Char), DevFree s →
      termSubGo (l0 :: lt) repl f prev s = s := by
  intro f
  induction f with
  | zero => intro prev s _; rfl
  | succ f ih =>
    intro prev s hP
    unfold termSubGo
    cases s with
    | nil => rfl
    | cons c t =>
      rw [termMatchAt_devfree_none hl hP]
      dsimp only
      rw [ih _ t hP.tail]

theorem foldl_termSub_id :
    ∀ (L : List (String × String)),
      (L.all fun p =>
        match p.1.toList with
        | c :: _ => isDevanagari c
        | [] => false) = true →
      ∀ {s : List Char}, DevFree s →
        L.foldl (fun acc p => termSubGo p.1.toList p.2.toList acc.length none acc) s = s := by
  intro L
  induction L with
  | nil => intro _ s _; rfl
  | cons p ps ih =>
    intro hall s h
    rw [List.all_cons, Bool.and_eq_true_iff] at hall
    obtain ⟨hp, hps⟩ := hall
    simp only [List.foldl_cons]
    cases hpl : p.1.toList with
    | nil =>
      rw [hpl] at hp
      exact Bool.noConfusion hp
    | cons l0 lt =>
      rw [hpl] at hp
      have hp2 : isDevanagari l0 = true := hp
      rw [termSubGo_devfree_id hp2 _ _ _ h]
      exact ih hps h

theorem applyTermsDict_devfree_id {s : List Char} (h : DevFree s) :
    applyTermsDict s = s :=
  foldl_termSub_id legal_terms_dict (by decide) h

theorem replaceNumerals_devfree_id {s : List Char} (h : DevFree s) :
    replaceNumerals s = s := by
  unfold replaceNumerals
  have : ∀ c ∈ s, (match hindi_numerals.find? (fun p => p.1 = c) with
      | some p => p.2
      | none => c) = c := by
    intro c hc
    have hnone : hindi_numerals.find? (fun p => p.1 = c) = none := by
      rw [List.find?_eq_none]
      intro x hx
      have hdev : ∀ y ∈ hindi_numerals, isDevanagari y.1 = true := by decide
      intro hxc
      have h1 := hdev x hx
      have h2 := h c hc
      rw [of_decide_eq_true hxc] at h1
      rw [h1] at h2
      cases h2
    rw [hnone]
  calc s.map _ = s.map id := List.map_congr_left this
  _ = s := List.map_id s

/-- Replacement of every rupee sign by INR, the effect of the plain
currency-marker rule on Devanagari-free text. -/
def rupFlat (s : List Char) : List Char :=
  s.flatMap fun c => if c = '₹' then "INR".toList else [c]

theorem rupFlat_nil : rupFlat [] = [] := rfl

theorem rupFlat_cons (c : Char) (t : List Char) :
    rupFlat (c :: t) = (if c = '₹' then "INR".toList else [c]) ++ rupFlat t := by
  simp [rupFlat]

theorem rupFlat_append (a b : List Char) :
    rupFlat (a ++ b) = rupFlat a ++ rupFlat b := by
  simp [rupFlat]

theorem rupFlat_no_rupee (s : List Char) : '₹' ∉ rupFlat s := by
  induction s with
  | nil => simp [rupFlat]
  | cons c t ih =>
    rw [rupFlat_cons]
    intro hmem
    rcases List.mem_append.mp hmem with hm | hm
    · by_cases hc : c = '₹'
      · rw [if_pos hc] at hm
        simp at hm
      · rw [if_neg hc] at hm
        simp at hm
        exact hc hm.symm
    · exact ih hm

theorem rupFlat_id_of_no {s : List Char} (h : '₹' ∉ s) : rupFlat s = s := by
  induction s with
  | nil => rfl
  | cons c t ih =>
    have hc : c ≠ '₹' := by
      intro hh
      subst hh
      exact h (List.mem_cons_self _ _)
    rw [rupFlat_cons, if_neg hc, ih fun hm => h (List.mem_cons_of_mem c hm)]
    rfl

theorem rupFlat_devfree {s : List Char} (h : DevFree s) : DevFree (rupFlat s) := by
  induction s with
  | nil => exact h
  | cons c t ih =>
    rw [rupFlat_cons]
    rw [DevFree.append_iff]
    refine ⟨?_, ih h.tail⟩
    by_cases hc : c = '₹'
    · rw [if_pos hc]
      intro d hd
      have hd2 : d = 'I' ∨ d = 'N' ∨ d = 'R' := by simpa using hd
      rcases hd2 with rfl | rfl | rfl <;> decide
    · rw [if_neg hc]
      intro d hd
      rw [List.mem_singleton.mp hd]
      exact h c (by simp)

theorem rupFlat_digit_prefix {d : List Char} (hd : ∀ c ∈ d, isPyDigit c = true)
    (x : List Char) : rupFlat (d ++ x) = d ++ rupFlat x := by
  rw [rupFlat_append, rupFlat_id_of_no]
  intro hm
  have := hd '₹' hm
  cases this

theorem markerSub_eq_rupFlat :
    ∀ (f : ℕ) {s : List Char}, DevFree s → s.length ≤ f →
      subGo markerMatchHead f s = rupFlat s := by
  intro f
  induction f with
  | zero =>
    intro s _ hf
    have : s = [] := List.length_eq_zero.mp (Nat.le_zero.mp hf)
    subst this
    rfl
  | succ f ih =>
    intro s h hf
    unfold subGo
    cases s with
    | nil => rfl
    | cons c t =>
      simp only [List.length_cons] at hf
      have hrl : consumeLit rupeeWord (c :: t) = none := consumeLit_rupee_none h
      by_cases hc : c = '₹'
      · subst hc
        have hm : markerMatchHead ('₹' :: t) = some ("INR".toList, t) := by
          unfold markerMatchHead
          rw [hrl]
          rfl
        rw [hm]
        dsimp only
        rw [ih h.tail (by omega), rupFlat_cons, if_pos rfl]
      · have hm : markerMatchHead (c :: t) = none := by
          unfold markerMatchHead
          rw [hrl]
          dsimp only
          split
          next rest heq =>
            exfalso
            cases heq
            exact hc rfl
          next => rfl
        rw [hm]
        dsimp only
        rw [ih h.tail (by omega), rupFlat_cons, if_neg hc]
        rfl

/-- Full structural description of a successful date match: the consumed
span splits into two short digit runs separated by dashes-or-slashes and a
final 2-to-4 digit group, the replacement is the runs joined by slashes, and
when the final group is shorter than 4 the remainder cannot start with a
digit. -/
theorem dm_span {s : List Char} {pr : List Char × List Char}
    (h : dateMatchHead s = some pr) :
    ∃ r1 c1 r2 c2 g3,
      s = r1 ++ (c1 :: (r2 ++ (c2 :: (g3 ++ pr.2)))) ∧
      pr.1 = r1 ++ ('/' :: (r2 ++ ('/' :: g3))) ∧
      (c1 = '-' ∨ c1 = '/') ∧ (c2 = '-' ∨ c2 = '/') ∧
      (∀ c ∈ r1, isPyDigit c = true) ∧ (∀ c ∈ r2, isPyDigit c = true) ∧
      (∀ c ∈ g3, isPyDigit c = true) ∧
      1 ≤ r1.length ∧ r1.length ≤ 2 ∧ 1 ≤ r2.length ∧ r2.length ≤ 2 ∧
      2 ≤ g3.length ∧ g3.length ≤ 4 ∧
      (g3.length = 4 ∨ ∀ d ∈ pr.2.take 1, isPyDigit d = false) := by
  obtain ⟨p1, p2⟩ := pr
  unfold dateMatchHead at h
  dsimp only at h
  split at h
  · exact absurd h (by simp)
  next hcond1 =>
    split at h
    next c1 s2 heq1 =>
      split at h
      next hc1 =>
        split at h
        · exact absurd h (by simp)
        next hcond2 =>
          split at h
          next c2 s3 heq2 =>
            split at h
            next hc2 =>
              split at h
              · exact absurd h (by simp)
              next hr3 =>
                simp only [Option.some.injEq, Prod.mk.injEq] at h
                obtain ⟨h1, h2⟩ := h
                rw [Bool.or_eq_true, not_or] at hcond1 hcond2
                obtain ⟨he1, hl1⟩ := hcond1
                obtain ⟨he2, hl2⟩ := hcond2
                set r1 := s.takeWhile isPyDigit with hr1_def
                set r2 := s2.takeWhile isPyDigit with hr2_def
                set r3 := s3.takeWhile isPyDigit with hr3_def
                set g3 := r3.take 4 with hg3_def
                have hb1 : 1 ≤ r1.length ∧ r1.length ≤ 2 := by
                  constructor
                  · rcases hx : r1 with _ | ⟨a, b⟩
                    · rw [hx] at he1; simp at he1
                    · simp [hx]
                  · by_contra hgt
                    exact hl1 (by simpa using Nat.lt_of_not_le hgt)
                have hb2 : 1 ≤ r2.length ∧ r2.length ≤ 2 := by
                  constructor
                  · rcases hx : r2 with _ | ⟨a, b⟩
                    · rw [hx] at he2; simp at he2
                    · simp [hx]
                  · by_contra hgt
                    exact hl2 (by simpa using Nat.lt_of_not_le hgt)
                have hr3b : 2 ≤ r3.length := Nat.le_of_not_lt hr3
                have hs_eq : s = r1 ++ (c1 :: s2) := by
                  rw [← heq1, hr1_def, drop_length_takeWhile]
                  exact (List.takeWhile_append_dropWhile _ _).symm
                have hs2_eq : s2 = r2 ++ (c2 :: s3) := by
                  rw [← heq2, hr2_def, drop_length_takeWhile]
                  exact (List.takeWhile_append_dropWhile _ _).symm
                have hg3pre : g3 <+: s3 := by
                  rw [hg3_def, hr3_def]
                  exact (List.take_prefix 4 _).trans (List.takeWhile_prefix _)
                obtain ⟨u, hu⟩ := hg3pre
                have hlen3 : g3.length = min 4 r3.length := by
                  rw [hg3_def]
                  exact List.length_take _ _
                have hp2u : p2 = u := by
                  rw [← h2, ← hu, List.drop_left]
                have hfin : s3 = g3 ++ p2 := by
                  rw [hp2u, hu]
                refine ⟨r1, c1, r2, c2, g3, ?_, ?_, ?_, ?_, ?_, ?_, ?_,
                  hb1.1, hb1.2, hb2.1, hb2.2, by omega, by omega, ?_⟩
                · rw [hs_eq, hs2_eq, hfin]
                · rw [← h1]
                  simp [List.cons_append, List.append_assoc]
                · rcases Bool.or_eq_true_iff.mp hc1 with hx | hx
                  · exact Or.inl (by simpa using hx)
                  · exact Or.inr (by simpa using hx)
                · rcases Bool.or_eq_true_iff.mp hc2 with hx | hx
                  · exact Or.inl (by simpa using hx)
                  · exact Or.inr (by simpa using hx)
                · intro c hc
                  rw [hr1_def] at hc
                  exact List.mem_takeWhile_imp hc
                · intro c hc
                  rw [hr2_def] at hc
                  exact List.mem_takeWhile_imp hc
                · intro c hc
                  rw [hg3_def] at hc
                  have := List.take_subset 4 r3 hc
                  rw [hr3_def] at this
                  exact List.mem_takeWhile_imp this
                · by_cases h4 : 4 ≤ r3.length
                  · left; omega
                  · right
                    have hg3all : g3 = r3 := by
                      rw [hg3_def]
                      exact List.take_of_length_le (by omega)
                    intro d hd
                    have hu2 : p2 = s3.dropWhile isPyDigit := by
                      rw [← drop_length_takeWhile, ← hr3_def, ← hg3all, ← hu,
                        List.drop_left]
                      exact hp2u
                    rw [hu2] at hd
                    cases hdw : s3.dropWhile isPyDigit with
                    | nil => rw [hdw] at hd; simp at hd
                    | cons x xs =>
                      rw [hdw] at hd
                      simp only [List.take_succ_cons, List.take_zero,
                        List.mem_singleton] at hd
                      rw [hd]
                      exact dropWhile_head_not _ _ hdw
            next => exact absurd h (by simp)
          next => exact absurd h (by simp)
      next => exact absurd h (by simp)
    next => exact absurd h (by simp)

/-- Converse evaluation: on a string of the shape described by `dm_span` the
date matcher succeeds with exactly that span and replacement. -/
theorem dm_compute {r1 r2 g3 Y : List Char} {c1 c2 : Char}
    (hr1d : ∀ c ∈ r1, isPyDigit c = true) (hr1a : 1 ≤ r1.length) (hr1b : r1.length ≤ 2)
    (hc1 : c1 = '-' ∨ c1 = '/')
    (hr2d : ∀ c ∈ r2, isPyDigit c = true) (hr2a : 1 ≤ r2.length) (hr2b : r2.length ≤ 2)
    (hc2 : c2 = '-' ∨ c2 = '/')
    (hg3d : ∀ c ∈ g3, isPyDigit c = true) (hg3a : 2 ≤ g3.length) (hg3b : g3.length ≤ 4)
    (hbd : g3.length = 4 ∨ ∀ d ∈ Y.take 1, isPyDigit d = false) :
    dateMatchHead (r1 ++ (c1 :: (r2 ++ (c2 :: (g3 ++ Y))))) =
      some (r1 ++ ('/' :: (r2 ++ ('/' :: g3))), Y) := by
  have hc1d : isPyDigit c1 = false := by rcases hc1 with rfl | rfl <;> decide
  have hc2d : isPyDigit c2 = false := by rcases hc2 with rfl | rfl <;> decide
  have hc1s : (c1 = '-' || c1 = '/') = true := by
    rcases hc1 with rfl | rfl <;> decide
  have hc2s : (c2 = '-' || c2 = '/') = true := by
    rcases hc2 with rfl | rfl <;> decide
  have htw1 : (r1 ++ (c1 :: (r2 ++ (c2 :: (g3 ++ Y))))).takeWhile isPyDigit = r1 := by
    rw [takeWhile_all_append hr1d, List.takeWhile_cons_of_neg (by simp [hc1d]),
      List.append_nil]
  have htw2 : (r2 ++ (c2 :: (g3 ++ Y))).takeWhile isPyDigit = r2 := by
    rw [takeWhile_all_append hr2d, List.takeWhile_cons_of_neg (by simp [hc2d]),
      List.append_nil]
  have hYtw : g3.length = 4 ∨ Y.takeWhile isPyDigit = [] := by
    rcases hbd with h4 | hhd
    · exact Or.inl h4
    · right
      cases Y with
      | nil => rfl
      | cons d t =>
        have := hhd d (by simp)
        exact List.takeWhile_cons_of_neg (by simp [this])
  have htw3 : (g3 ++ Y).takeWhile isPyDigit = g3 ++ Y.takeWhile isPyDigit :=
    takeWhile_all_append hg3d Y
  have htake : ((g3 ++ Y).takeWhile isPyDigit).take 4 = g3 := by
    rw [htw3]
    rcases hYtw with h4 | hnil
    · rw [List.take_append_eq_append_take, List.take_of_length_le (by omega), h4]
      simp
    · rw [hnil, List.append_nil]
      exact List.take_of_length_le hg3b
  have hlen3 : 2 ≤ ((g3 ++ Y).takeWhile isPyDigit).length := by
    rw [htw3, List.length_append]
    omega
  unfold dateMatchHead
  dsimp only
  rw [htw1]
  rw [if_neg (by
    rw [Bool.or_eq_true, not_or]
    constructor
    · simp only [List.isEmpty_iff]
      intro hx
      rw [hx] at hr1a
      simp at hr1a
    · simp only [decide_eq_true_eq]
      omega)]
  rw [List.drop_left]
  dsimp only
  rw [if_pos hc1s, htw2]
  rw [if_neg (by
    rw [Bool.or_eq_true, not_or]
    constructor
    · simp only [List.isEmpty_iff]
      intro hx
      rw [hx] at hr2a
      simp at hr2a
    · simp only [decide_eq_true_eq]
      omega)]
  rw [List.drop_left]
  dsimp only
  rw [if_pos hc2s]
  rw [if_neg (by omega)]
  rw [htake, List.drop_left]
  simp [List.cons_append, List.append_assoc]

/-- The empty string has no date match. -/
theorem dm_none_nil : dateMatchHead [] = none := rfl

/-- A date match never starts at a non-digit. -/
theorem dm_none_of_head {c : Char} {t : List Char} (h : isPyDigit c = false) :
    dateMatchHead (c :: t) = none := by
  simp only [dateMatchHead,
    List.takeWhile_cons_of_neg (by simp [h] : ¬ isPyDigit c = true)]
  rfl

/-- A successful date match consumes at least one character. -/
theorem dm_lt {s : List Char} {pr : List Char × List Char}
    (h : dateMatchHead s = some pr) : pr.2.length < s.length := by
  obtain ⟨r1, c1, r2, c2, g3, hs, -, -, -, -, -, -, -, -, -, -, -, -, -⟩ := dm_span h
  rw [hs]
  simp [List.length_append]
  omega

/-- One scanner step on a failed head match copies one character. -/
theorem pySub_step_none {m : List Char → Option (List Char × List Char)}
    {c : Char} {t : List Char} (h : m (c :: t) = none) :
    pySub m (c :: t) = c :: pySub m t := by
  unfold pySub
  rw [List.length_cons]
  conv_lhs => unfold subGo
  dsimp only
  rw [h]

/-- One scanner step on a successful head match emits the replacement and
continues after the consumed span. -/
theorem pySub_step_some {m : List Char → Option (List Char × List Char)}
    (hm : ∀ s pr, m s = some pr → pr.2.length < s.length)
    {s : List Char} {pr : List Char × List Char}
    (hs : s ≠ []) (h : m s = some pr) :
    pySub m s = pr.1 ++ pySub m pr.2 := by
  obtain ⟨c, t, rfl⟩ := List.exists_cons_of_ne_nil hs
  unfold pySub
  rw [List.length_cons]
  conv_lhs => unfold subGo
  dsimp only
  rw [h]
  have hlt := hm _ _ h
  simp only [List.length_cons] at hlt
  show pr.1 ++ subGo m t.length pr.2 = pr.1 ++ subGo m pr.2.length pr.2
  exact congrArg (pr.1 ++ ·) (subGo_eq_of_le hm _ _ _ (by omega) le_rfl)

/-- The date-pattern pass of `pySubPatterns`. -/
def dateSub (s : List Char) : List Char := pySub dateMatchHead s

theorem dateSub_nil : dateSub [] = [] := rfl

theorem dateSub_none_cons {c : Char} {t : List Char}
    (h : dateMatchHead (c :: t) = none) : dateSub (c :: t) = c :: dateSub t :=
  pySub_step_none h

theorem dateSub_some {s : List Char} {pr : List Char × List Char}
    (h : dateMatchHead s = some pr) : dateSub s = pr.1 ++ dateSub pr.2 := by
  have hs : s ≠ [] := by
    intro hnil
    rw [hnil, dm_none_nil] at h
    cases h
  exact pySub_step_some (fun s pr hh => dm_lt hh) hs h

/-- The date pass keeps a leading non-digit in place. -/
theorem dateSub_take_one_nondigit {s : List Char}
    (h : ∀ d ∈ s.take 1, isPyDigit d = false) :
    ∀ d ∈ (dateSub s).take 1, isPyDigit d = false := by
  cases s with
  | nil =>
    rw [dateSub_nil]
    intro d hd
    simp at hd
  | cons c t =>
    have hc : isPyDigit c = false := h c (by simp)
    rw [dateSub_none_cons (dm_none_of_head hc)]
    intro d hd
    simp at hd
    rw [hd]
    exact hc

/-- Two characters are interchangeable for the date matcher: equal, or both
in the dash-or-slash separator class. -/
def sepR (a b : Char) : Prop :=
  a = b ∨ ((a = '-' ∨ a = '/') ∧ (b = '-' ∨ b = '/'))

/-- Pointwise separator-interchange correspondence of strings. -/
def SepEq (s t : List Char) : Prop := List.Forall₂ sepR s t

theorem sepR_refl (a : Char) : sepR a a := Or.inl rfl

theorem sepR_symm {a b : Char} (h : sepR a b) : sepR b a := by
  rcases h with rfl | ⟨ha, hb⟩
  · exact Or.inl rfl
  · exact Or.inr ⟨hb, ha⟩

theorem sepEq_refl : ∀ s : List Char, SepEq s s
  | [] => List.Forall₂.nil
  | c :: t => List.Forall₂.cons (sepR_refl c) (sepEq_refl t)

theorem sepEq_symm {s t : List Char} (h : SepEq s t) : SepEq t s := by
  induction h with
  | nil => exact List.Forall₂.nil
  | cons hab _ ih => exact List.Forall₂.cons (sepR_symm hab) ih

theorem sepEq_append {a b x y : List Char} (h1 : SepEq a x) (h2 : SepEq b y) :
    SepEq (a ++ b) (x ++ y) := by
  induction h1 with
  | nil => exact h2
  | cons hab _ ih => exact List.Forall₂.cons hab ih

theorem sepEq_append_split {a b t : List Char} (h : SepEq (a ++ b) t) :
    ∃ x y, t = x ++ y ∧ SepEq a x ∧ SepEq b y := by
  induction a generalizing t with
  | nil => exact ⟨[], t, rfl, List.Forall₂.nil, h⟩
  | cons c a ih =>
    simp only [List.cons_append] at h
    rcases h with - | ⟨hcd, hrest⟩
    obtain ⟨x, y, rfl, hx, hy⟩ := ih hrest
    exact ⟨_ :: x, y, rfl, List.Forall₂.cons hcd hx, hy⟩

theorem sepEq_cons_split {c : Char} {a t : List Char} (h : SepEq (c :: a) t) :
    ∃ d y, t = d :: y ∧ sepR c d ∧ SepEq a y := by
  rcases h with - | ⟨hcd, hrest⟩
  exact ⟨_, _, rfl, hcd, hrest⟩

theorem sepR_eq_of_digit {a b : Char} (h : sepR a b) (hd : isPyDigit a = true) :
    b = a := by
  rcases h with rfl | ⟨ha, -⟩
  · rfl
  · exfalso
    rcases ha with rfl | rfl <;> exact absurd hd (by decide)

theorem sepEq_eq_of_digits {a x : List Char} (h : SepEq a x)
    (hd : ∀ c ∈ a, isPyDigit c = true) : x = a := by
  induction h with
  | nil => rfl
  | cons hab _ ih =>
    rw [ih (fun c hc => hd c (List.mem_cons_of_mem _ hc)),
      sepR_eq_of_digit hab (hd _ (List.mem_cons_self _ _))]

theorem sepR_nondigit {a b : Char} (h : sepR a b) (hd : isPyDigit a = false) :
    isPyDigit b = false := by
  rcases h with rfl | ⟨-, hb⟩
  · exact hd
  · rcases hb with rfl | rfl <;> decide

theorem sepR_sep {a b : Char} (h : sepR a b) (ha : a = '-' ∨ a = '/') :
    b = '-' ∨ b = '/' := by
  rcases h with rfl | ⟨-, hb⟩
  · exact ha
  · exact hb

theorem sepEq_take_one_nondigit {p Y : List Char} (h : SepEq p Y)
    (hd : ∀ d ∈ p.take 1, isPyDigit d = false) :
    ∀ d ∈ Y.take 1, isPyDigit d = false := by
  rcases h with - | ⟨hab, -⟩
  · intro d hd2
    simp at hd2
  · intro d hd2
    simp at hd2
    rw [hd2]
    exact sepR_nondigit hab (hd _ (by simp))

/-- Separator-interchange transfer of date-match success. -/
theorem dm_sepEq_isSome {s t : List Char} (hst : SepEq s t)
    (h : (dateMatchHead s).isSome = true) : (dateMatchHead t).isSome = true := by
  obtain ⟨pr, h⟩ := Option.isSome_iff_exists.mp h
  obtain ⟨r1, c1, r2, c2, g3, hs, h1, hc1d, hc2d, hr1d, hr2d, hg3d,
    ha1, ha2, hb1, hb2, hg1, hg2, hbd⟩ := dm_span h
  subst hs
  obtain ⟨x1, y1, rfl, hx1, hy1⟩ := sepEq_append_split hst
  obtain ⟨e1, y2, rfl, he1, hy2⟩ := sepEq_cons_split hy1
  obtain ⟨x2, y3, rfl, hx2, hy3⟩ := sepEq_append_split hy2
  obtain ⟨e2, y4, rfl, he2, hy4⟩ := sepEq_cons_split hy3
  obtain ⟨x3, Y, rfl, hx3, hY⟩ := sepEq_append_split hy4
  obtain rfl : r1 = x1 := (sepEq_eq_of_digits hx1 hr1d).symm
  obtain rfl : r2 = x2 := (sepEq_eq_of_digits hx2 hr2d).symm
  obtain rfl : g3 = x3 := (sepEq_eq_of_digits hx3 hg3d).symm
  have hbd2 : g3.length = 4 ∨ ∀ d ∈ Y.take 1, isPyDigit d = false := by
    rcases hbd with h4 | hnd
    · exact Or.inl h4
    · exact Or.inr (sepEq_take_one_nondigit hY hnd)
  rw [dm_compute hr1d ha1 ha2 (sepR_sep he1 hc1d) hr2d hb1 hb2 (sepR_sep he2 hc2d)
    hg3d hg1 hg2 hbd2]
  rfl

/-- Separator-interchange transfer of date-match failure. -/
theorem dm_sepEq_none {s t : List Char} (hst : SepEq s t)
    (h : dateMatchHead s = none) : dateMatchHead t = none := by
  cases ht : dateMatchHead t with
  | none => rfl
  | some pr =>
    have h2 := dm_sepEq_isSome (sepEq_symm hst) (by rw [ht]; rfl)
    rw [h] at h2
    cases h2

/-- The date pass only exchanges separators: input and output are pointwise
separator-interchangeable. -/
theorem sepEq_dateSub_aux :
    ∀ (n : ℕ) (s : List Char), s.length ≤ n → SepEq s (dateSub s) := by
  intro n
  induction n with
  | zero =>
    intro s hs
    have h0 : s = [] := List.length_eq_zero.mp (Nat.le_zero.mp hs)
    subst h0
    exact List.Forall₂.nil
  | succ n ih =>
    intro s hs
    cases hdm : dateMatchHead s with
    | none =>
      cases s with
      | nil => exact List.Forall₂.nil
      | cons c t =>
        rw [dateSub_none_cons hdm]
        simp only [List.length_cons] at hs
        exact List.Forall₂.cons (sepR_refl c) (ih t (by omega))
    | some pr =>
      have hlt := dm_lt hdm
      obtain ⟨r1, c1, r2, c2, g3, hseq, h1, hc1d, hc2d, hr1d, hr2d, hg3d,
        -, -, -, -, -, -, -⟩ := dm_span hdm
      rw [dateSub_some hdm, h1, hseq]
      have hrec : SepEq pr.2 (dateSub pr.2) := ih pr.2 (by omega)
      simp only [List.append_assoc, List.cons_append]
      exact sepEq_append (sepEq_refl r1)
        (List.Forall₂.cons (Or.inr ⟨hc1d, Or.inr rfl⟩)
          (sepEq_append (sepEq_refl r2)
            (List.Forall₂.cons (Or.inr ⟨hc2d, Or.inr rfl⟩)
              (sepEq_append (sepEq_refl g3) hrec))))

theorem sepEq_dateSub (s : List Char) : SepEq s (dateSub s) :=
  sepEq_dateSub_aux s.length s le_rfl

/-- The date pass is idempotent. -/
theorem dateSub_idem_aux :
    ∀ (n : ℕ) (s : List Char), s.length ≤ n → dateSub (dateSub s) = dateSub s := by
  intro n
  induction n with
  | zero =>
    intro s hs
    have h0 : s = [] := List.length_eq_zero.mp (Nat.le_zero.mp hs)
    subst h0
    rfl
  | succ n ih =>
    intro s hs
    cases hdm : dateMatchHead s with
    | none =>
      cases s with
      | nil => rfl
      | cons c t =>
        simp only [List.length_cons] at hs
        rw [dateSub_none_cons hdm]
        have hdm2 : dateMatchHead (c :: dateSub t) = none :=
          dm_sepEq_none (List.Forall₂.cons (sepR_refl c) (sepEq_dateSub t)) hdm
        rw [dateSub_none_cons hdm2, ih t (by omega)]
    | some pr =>
      have hlt := dm_lt hdm
      obtain ⟨r1, c1, r2, c2, g3, hseq, h1, hc1d, hc2d, hr1d, hr2d, hg3d,
        ha1, ha2, hb1, hb2, hg1, hg2, hbd⟩ := dm_span hdm
      rw [dateSub_some hdm]
      have hbd2 : g3.length = 4 ∨ ∀ d ∈ (dateSub pr.2).take 1, isPyDigit d = false := by
        rcases hbd with h4 | hnd
        · exact Or.inl h4
        · exact Or.inr (dateSub_take_one_nondigit hnd)
      have harg : pr.1 ++ dateSub pr.2 =
          r1 ++ ('/' :: (r2 ++ ('/' :: (g3 ++ dateSub pr.2)))) := by
        rw [h1]
        simp [List.append_assoc, List.cons_append]
      have hdm2 : dateMatchHead (pr.1 ++ dateSub pr.2) =
          some (r1 ++ ('/' :: (r2 ++ ('/' :: g3))), dateSub pr.2) := by
        rw [harg]
        exact dm_compute hr1d ha1 ha2 (Or.inr rfl) hr2d hb1 hb2 (Or.inr rfl)
          hg3d hg1 hg2 hbd2
      rw [dateSub_some hdm2]
      dsimp only
      rw [← h1, ih pr.2 (by omega)]

theorem dateSub_idem (s : List Char) : dateSub (dateSub s) = dateSub s :=
  dateSub_idem_aux s.length s le_rfl

/-- The date pass introduces no Devanagari characters. -/
theorem dateSub_devfree_aux :
    ∀ (n : ℕ) (s : List Char), s.length ≤ n → DevFree s → DevFree (dateSub s) := by
  intro n
  induction n with
  | zero =>
    intro s hs h
    have h0 : s = [] := List.length_eq_zero.mp (Nat.le_zero.mp hs)
    subst h0
    exact h
  | succ n ih =>
    intro s hs h
    cases hdm : dateMatchHead s with
    | none =>
      cases s with
      | nil => exact h
      | cons c t =>
        simp only [List.length_cons] at hs
        rw [dateSub_none_cons hdm]
        intro d hd
        rcases List.mem_cons.mp hd with rfl | hd2
        · exact h d (List.mem_cons_self _ _)
        · exact ih t (by omega) h.tail d hd2
    | some pr =>
      have hlt := dm_lt hdm
      obtain ⟨r1, c1, r2, c2, g3, hseq, h1, -, -, hr1d, hr2d, hg3d,
        -, -, -, -, -, -, -⟩ := dm_span hdm
      have hall : DevFree (r1 ++ (c1 :: (r2 ++ (c2 :: (g3 ++ pr.2))))) := by
        rw [← hseq]
        exact h
      rw [DevFree.append_iff] at hall
      obtain ⟨hdr1, hall⟩ := hall
      have hall2 := hall.tail
      rw [DevFree.append_iff] at hall2
      obtain ⟨hdr2, hall3⟩ := hall2
      have hall4 := hall3.tail
      rw [DevFree.append_iff] at hall4
      obtain ⟨hdg3, hdp2⟩ := hall4
      rw [dateSub_some hdm, DevFree.append_iff]
      constructor
      · rw [h1]
        intro d hd
        simp only [List.mem_append, List.mem_cons] at hd
        rcases hd with hd | rfl | hd | rfl | hd
        · exact hdr1 d hd
        · decide
        · exact hdr2 d hd
        · decide
        · exact hdg3 d hd
      · exact ih pr.2 (by omega) hdp2

theorem dateSub_devfree {s : List Char} (h : DevFree s) : DevFree (dateSub s) :=
  dateSub_devfree_aux s.length s le_rfl h

theorem digit_ne_rupee {c : Char} (h : isPyDigit c = true) : c ≠ '₹' := by
  intro hc
  subst hc
  exact absurd h (by decide)

/-- Flattening rupee signs preserves a date match: the consumed span contains
only digits and separators, which `rupFlat` keeps verbatim. -/
theorem dm_rupFlat_some {s : List Char} {pr : List Char × List Char}
    (h : dateMatchHead s = some pr) :
    dateMatchHead (rupFlat s) = some (pr.1, rupFlat pr.2) := by
  obtain ⟨r1, c1, r2, c2, g3, hseq, h1, hc1d, hc2d, hr1d, hr2d, hg3d,
    ha1, ha2, hb1, hb2, hg1, hg2, hbd⟩ := dm_span h
  have hc1ne : c1 ≠ '₹' := by rcases hc1d with rfl | rfl <;> decide
  have hc2ne : c2 ≠ '₹' := by rcases hc2d with rfl | rfl <;> decide
  have hflat : rupFlat s = r1 ++ (c1 :: (r2 ++ (c2 :: (g3 ++ rupFlat pr.2)))) := by
    rw [hseq, rupFlat_digit_prefix hr1d, rupFlat_cons, if_neg hc1ne,
      rupFlat_digit_prefix hr2d, rupFlat_cons, if_neg hc2ne,
      rupFlat_digit_prefix hg3d]
    simp
  have hbd2 : g3.length = 4 ∨ ∀ d ∈ (rupFlat pr.2).take 1, isPyDigit d = false := by
    rcases hbd with h4 | hnd
    · exact Or.inl h4
    · right
      cases hp : pr.2 with
      | nil =>
        rw [rupFlat_nil]
        intro d hd
        simp at hd
      | cons d u =>
        rw [rupFlat_cons]
        by_cases hdr : d = '₹'
        · rw [if_pos hdr]
          intro e he
          simp at he
          rw [he]
          decide
        · rw [if_neg hdr]
          intro e he
          simp at he
          rw [he]
          exact hnd d (by rw [hp]; simp)
  rw [hflat, h1]
  exact dm_compute hr1d ha1 ha2 hc1d hr2d hb1 hb2 hc2d hg3d hg1 hg2 hbd2

/-- A prefix of the flattened string that avoids `I` pulls back to a prefix
of the original string. -/
theorem rupFlat_pullback : ∀ (P : List Char) {s Q : List Char},
    (∀ c ∈ P, c ≠ 'I') → rupFlat s = P ++ Q →
    ∃ Q0, s = P ++ Q0 ∧ rupFlat Q0 = Q := by
  intro P
  induction P with
  | nil =>
    intro s Q hI h
    exact ⟨s, rfl, h⟩
  | cons p P ih =>
    intro s Q hI h
    cases s with
    | nil =>
      rw [rupFlat_nil] at h
      simp at h
    | cons c t =>
      rw [rupFlat_cons] at h
      by_cases hc : c = '₹'
      · rw [if_pos hc] at h
        rw [show ("INR".toList : List Char) = ['I', 'N', 'R'] from rfl] at h
        simp only [List.cons_append, List.nil_append] at h
        injection h with h1 h2
        exact absurd h1.symm (hI p (List.mem_cons_self _ _))
      · rw [if_neg hc] at h
        simp only [List.singleton_append, List.cons_append] at h
        injection h with h1 h2
        obtain ⟨Q0, rfl, hq⟩ := ih (fun x hx => hI x (List.mem_cons_of_mem _ hx)) h2
        refine ⟨Q0, ?_, hq⟩
        rw [h1, List.cons_append]

theorem dm_rupFlat_none {s : List Char} (h : dateMatchHead s = none) :
    dateMatchHead (rupFlat s) = none := by
  cases hdm : dateMatchHead (rupFlat s) with
  | none => rfl
  | some pr =>
    exfalso
    obtain ⟨r1, c1, r2, c2, g3, hseq, h1, hc1d, hc2d, hr1d, hr2d, hg3d,
      ha1, ha2, hb1, hb2, hg1, hg2, hbd⟩ := dm_span hdm
    have hseq2 : rupFlat s = (r1 ++ (c1 :: (r2 ++ (c2 :: g3)))) ++ pr.2 := by
      rw [hseq]
      simp [List.append_assoc, List.cons_append]
    have hPI : ∀ c ∈ r1 ++ (c1 :: (r2 ++ (c2 :: g3))), c ≠ 'I' := by
      intro c hc
      simp only [List.mem_append, List.mem_cons] at hc
      have hdig : ∀ {d : Char}, isPyDigit d = true → d ≠ 'I' := by
        intro d hd hId
        subst hId
        exact absurd hd (by decide)
      rcases hc with hc | rfl | hc | rfl | hc
      · exact hdig (hr1d c hc)
      · rcases hc1d with rfl | rfl <;> decide
      · exact hdig (hr2d c hc)
      · rcases hc2d with rfl | rfl <;> decide
      · exact hdig (hg3d c hc)
    obtain ⟨Q0, hsQ, hQ⟩ := rupFlat_pullback _ hPI hseq2
    have hbd0 : g3.length = 4 ∨ ∀ d ∈ Q0.take 1, isPyDigit d = false := by
      rcases hbd with h4 | hnd
      · exact Or.inl h4
      · right
        cases hq0 : Q0 with
        | nil =>
          intro d hd
          simp at hd
        | cons d u =>
          intro e he
          simp at he
          subst he
          by_contra hdig
          rw [Bool.not_eq_false] at hdig
          have hne : e ≠ '₹' := digit_ne_rupee hdig
          have hp2 : pr.2 = e :: rupFlat u := by
            rw [← hQ, hq0, rupFlat_cons, if_neg hne]
            simp
          have hcontra := hnd e (by rw [hp2]; simp)
          rw [hdig] at hcontra
          cases hcontra
    have hsm := dm_compute hr1d ha1 ha2 hc1d hr2d hb1 hb2 hc2d hg3d hg1 hg2 hbd0
    rw [hsQ] at h
    rw [show (r1 ++ (c1 :: (r2 ++ (c2 :: g3)))) ++ Q0 =
        r1 ++ (c1 :: (r2 ++ (c2 :: (g3 ++ Q0)))) by
      simp [List.append_assoc, List.cons_append]] at h
    rw [hsm] at h
    cases h

/-- The rupee-flattening and date passes commute. -/
theorem dateSub_rupFlat_aux :
    ∀ (n : ℕ) (s : List Char), s.length ≤ n →
      dateSub (rupFlat s) = rupFlat (dateSub s) := by
  intro n
  induction n with
  | zero =>
    intro s hs
    have h0 : s = [] := List.length_eq_zero.mp (Nat.le_zero.mp hs)
    subst h0
    rfl
  | succ n ih =>
    intro s hs
    cases hdm : dateMatchHead s with
    | some pr =>
      have hlt := dm_lt hdm
      have h2 := dm_rupFlat_some hdm
      rw [dateSub_some hdm, dateSub_some h2]
      dsimp only
      rw [ih pr.2 (by omega), rupFlat_append]
      obtain ⟨r1, c1, r2, c2, g3, hseq, h1, hc1d, hc2d, hr1d, hr2d, hg3d,
        -, -, -, -, -, -, -⟩ := dm_span hdm
      have hno : '₹' ∉ pr.1 := by
        rw [h1]
        intro hm
        simp only [List.mem_append, List.mem_cons] at hm
        rcases hm with hm | hm | hm | hm | hm
        · exact absurd (hr1d _ hm) (by decide)
        · exact absurd hm (by decide)
        · exact absurd (hr2d _ hm) (by decide)
        · exact absurd hm (by decide)
        · exact absurd (hg3d _ hm) (by decide)
      rw [rupFlat_id_of_no hno]
    | none =>
      cases s with
      | nil => rfl
      | cons c t =>
        simp only [List.length_cons] at hs
        by_cases hc : c = '₹'
        · subst hc
          rw [rupFlat_cons, if_pos rfl,
            show ("INR".toList : List Char) = ['I', 'N', 'R'] from rfl]
          simp only [List.cons_append, List.nil_append]
          rw [dateSub_none_cons (dm_none_of_head (by decide)),
            dateSub_none_cons (dm_none_of_head (by decide)),
            dateSub_none_cons (dm_none_of_head (by decide)),
            dateSub_none_cons hdm, ih t (by omega), rupFlat_cons, if_pos rfl]
          rfl
        · have hflat : dateMatchHead (c :: rupFlat t) = none := by
            have hn := dm_rupFlat_none hdm
            rw [rupFlat_cons, if_neg hc, List.singleton_append] at hn
            exact hn
          rw [rupFlat_cons, if_neg hc, List.singleton_append,
            dateSub_none_cons hflat, ih t (by omega), dateSub_none_cons hdm,
            rupFlat_cons, if_neg hc, List.singleton_append]

theorem dateSub_rupFlat_comm (s : List Char) :
    dateSub (rupFlat s) = rupFlat (dateSub s) :=
  dateSub_rupFlat_aux s.length s le_rfl

theorem rupFlat_idem (s : List Char) : rupFlat (rupFlat s) = rupFlat s :=
  rupFlat_id_of_no (rupFlat_no_rupee s)

theorem pct_devfree_none2 {lit : List Char}
    (hl : ∃ l0 lt, lit = l0 :: lt ∧ isDevanagari l0 = true)
    {s : List Char} (h : DevFree s) : pctMatchHead lit s = none := by
  obtain ⟨l0, lt, rfl, hl0⟩ := hl
  exact pct_devfree_none hl0 h

/-- On Devanagari-free text `normalize_text` reduces to the date rewrite
followed by rupee-sign flattening: the numeral map, the Devanagari-anchored
pattern rules and the dictionary pass are all identities there. -/
theorem normalize_devfree_eq {text : String} (hne : text.isEmpty = false)
    (h : DevFree text.toList) :
    normalize_text text = String.mk (rupFlat (dateSub text.toList)) := by
  unfold normalize_text
  rw [if_neg (by simp [hne])]
  rw [replaceNumerals_devfree_id h]
  simp only [pySubPatterns]
  rw [show pySub dateMatchHead text.toList = dateSub text.toList from rfl]
  have hd1 : DevFree (dateSub text.toList) := dateSub_devfree h
  have hd2 : DevFree (rupFlat (dateSub text.toList)) := rupFlat_devfree hd1
  have e1 : pySub markerMatchHead (dateSub text.toList) =
      rupFlat (dateSub text.toList) :=
    markerSub_eq_rupFlat _ hd1 le_rfl
  have e2 : pySub numCapMatchHead (rupFlat (dateSub text.toList)) =
      rupFlat (dateSub text.toList) :=
    subGo_id_of_none (fun s hs => numCap_devfree_none hs)
      (fun c t (hct : DevFree (c :: t)) => hct.tail) _ _ hd2
  have e3 : pySub (pctMatchHead "प्रतिशत".toList) (rupFlat (dateSub text.toList)) =
      rupFlat (dateSub text.toList) :=
    subGo_id_of_none
      (fun s hs =>
        pct_devfree_none2 ⟨'प', "प्रतिशत".toList.tail, by decide, by decide⟩ hs)
      (fun c t (hct : DevFree (c :: t)) => hct.tail) _ _ hd2
  have e4 : pySub (pctMatchHead "फीसदी".toList) (rupFlat (dateSub text.toList)) =
      rupFlat (dateSub text.toList) :=
    subGo_id_of_none
      (fun s hs =>
        pct_devfree_none2 ⟨'फ', "फीसदी".toList.tail, by decide, by decide⟩ hs)
      (fun c t (hct : DevFree (c :: t)) => hct.tail) _ _ hd2
  rw [e1, e2, e3, e4, applyTermsDict_devfree_id hd2]

/-! ### Claim theorems -/

/-- C1: the claim asserts `0 <= risk_score <= 10` for every clause analysis,
with clamping `min(10, ...)` once at the end.  The code clamps only from
above: a Jurisdiction clause naming an Indian city and matching no risk
pattern gets the −1 adjustment and `analyze_clause_risk` returns
`risk_score = -1`, violating the claimed lower bound (and the source's own
"Normalize risk score to 0-10" comment).  The text used here is classified
as "Jurisdiction" by the pipeline's own classifier. -/
theorem c1_negative_score_on_jurisdiction_clause :
    classify_clause_type "governing law: courts of Mumbai" = "Jurisdiction" ∧
    (analyze_clause_risk "governing law: courts of Mumbai" "Jurisdiction").risk_score = -1 ∧
    (analyze_clause_risk "governing law: courts of Mumbai" "Jurisdiction").risk_score < 0 ∧
    (analyze_clause_risk "governing law: courts of Mumbai" "Jurisdiction").risk_level = "Low" := by
  refine ⟨by decide, by decide, by decide, by decide⟩

/-- C2: on the exact clause text "unlimited liability" with clause type
"Liability", only the single high-tier pattern matches, the score is exactly
the high-tier weight 3, and the level is "Low" under the 7/4 thresholds. -/
theorem c2_unlimited_liability_scores_three_low :
    (analyze_clause_risk "unlimited liability" "Liability").risk_score = 3 ∧
    (analyze_clause_risk "unlimited liability" "Liability").risk_level = "Low" ∧
    (analyze_clause_risk "unlimited liability" "Liability").issues =
      [{ issue := "Unlimited liability exposes business to catastrophic risk",
         risk_level := "High" }] := by
  refine ⟨by decide, by decide, by decide⟩

/-- C3: `calculate_composite_risk` returns `{overall_risk: "Low", score: 0}`
on the empty sequence; on a nonempty sequence it computes
`avg = sum(risk_score)/count`, buckets `avg * 2` through the 7/4 thresholds
for `overall_risk`, and reports `round(avg, 1)` (the undoubled average) as
`score`; per-clause scores [8, 2, 2] yield score 4.0 and overall_risk
"High". -/
theorem c3_composite_risk_formulas (l : List ClauseAnalysis) (h : l ≠ []) :
    calculate_composite_risk [] = some (CompositeRisk.short "Low" 0) ∧
    calculate_composite_risk l =
      (let avg : ℚ := (((l.map fun a => a.risk_score).sum : ℤ) : ℚ) / (l.length : ℚ)
       some (CompositeRisk.full (score_to_level (avg * 2)) (pyRound1 avg)
        (l.filter fun c => c.risk_level == "High").length
        (l.filter fun c => c.risk_level == "Medium").length
        l.length
        (l.filter fun c => c.risk_level == "High").length
        (l.filter fun c => c.risk_level == "Medium").length
        ((l.length : ℤ) - ((l.filter fun c => c.risk_level == "High").length : ℤ)
          - ((l.filter fun c => c.risk_level == "Medium").length : ℤ)))) ∧
    calculate_composite_risk
      [{ risk_score := 8, risk_level := "High", issues := [], suggestions := [],
         clause_type := "General" },
       { risk_score := 2, risk_level := "Low", issues := [], suggestions := [],
         clause_type := "General" },
       { risk_score := 2, risk_level := "Low", issues := [], suggestions := [],
         clause_type := "General" }] =
      some (CompositeRisk.full "High" 4 1 0 3 1 0 2) := by
  refine ⟨rfl, composite_full_eq l h, ?_⟩
  rw [composite_full_eq _ (by simp)]
  simp [pyRound1, roundHalfEven, score_to_level]
  norm_num

/-- C3 witness at the [8, 2, 2] list. -/
theorem c3_composite_risk_formulas_witness :
    ([{ risk_score := (8 : ℤ), risk_level := "High", issues := [], suggestions := [],
        clause_type := "General" }] ≠ ([] : List ClauseAnalysis)) ∧
    calculate_composite_risk
      [{ risk_score := 8, risk_level := "High", issues := [], suggestions := [],
         clause_type := "General" },
       { risk_score := 2, risk_level := "Low", issues := [], suggestions := [],
         clause_type := "General" },
       { risk_score := 2, risk_level := "Low", issues := [], suggestions := [],
         clause_type := "General" }] =
      some (CompositeRisk.full "High" 4 1 0 3 1 0 2) :=
  ⟨by decide,
   (c3_composite_risk_formulas
     [{ risk_score := 8, risk_level := "High", issues := [], suggestions := [],
        clause_type := "General" }] (by decide)).2.2⟩

/-- C4: for every nonempty input the composite result satisfies
`risk_distribution.high + risk_distribution.medium + risk_distribution.low
 = total_clauses`, where high and medium count the analyses with
`risk_level` "High" and "Medium". -/
theorem c4_risk_distribution_sums_to_total (l : List ClauseAnalysis) (h : l ≠ []) :
    ∃ r, calculate_composite_risk l = some r ∧
      r.distSum = (r.totalClauses : ℤ) ∧
      r.distHigh = (l.filter fun c => c.risk_level == "High").length ∧
      r.distMedium = (l.filter fun c => c.risk_level == "Medium").length := by
  refine ⟨_, composite_full_eq l h, ?_, rfl, rfl⟩
  simp [CompositeRisk.distSum, CompositeRisk.totalClauses]

/-- C4 witness at a two-element list. -/
theorem c4_risk_distribution_sums_to_total_witness :
    ([{ risk_score := (9 : ℤ), risk_level := "High", issues := [], suggestions := [],
        clause_type := "Indemnity" },
      { risk_score := (5 : ℤ), risk_level := "Medium", issues := [], suggestions := [],
        clause_type := "Payment" }] ≠ ([] : List ClauseAnalysis)) ∧
    (∃ r, calculate_composite_risk
        [{ risk_score := (9 : ℤ), risk_level := "High", issues := [], suggestions := [],
           clause_type := "Indemnity" },
         { risk_score := (5 : ℤ), risk_level := "Medium", issues := [], suggestions := [],
           clause_type := "Payment" }] = some r ∧
      r.distSum = (r.totalClauses : ℤ) ∧
      r.distHigh = 1 ∧ r.distMedium = 1) :=
  ⟨by decide, by
    obtain ⟨r, h1, h2, h3, h4⟩ := c4_risk_distribution_sums_to_total
      [{ risk_score := (9 : ℤ), risk_level := "High", issues := [], suggestions := [],
         clause_type := "Indemnity" },
       { risk_score := (5 : ℤ), risk_level := "Medium", issues := [], suggestions := [],
         clause_type := "Payment" }] (by decide)
    refine ⟨r, h1, h2, ?_, ?_⟩
    · rw [h3]; decide
    · rw [h4]; decide⟩

/-- C6: `classify_clause_type` returns the first category, in the fixed
order of the taxonomy, whose keyword set matches the lower-cased text, and
"General" when none match; a text matching both the Indemnity and the
Confidentiality keyword sets is assigned the earlier category, Indemnity. -/
theorem c6_classifier_first_match_priority :
    (∀ t : String, classify_clause_type t = classifySpec t) ∧
    containsSub (pyLower "shall indemnify and keep confidential records".toList)
      "indemnif".toList = true ∧
    containsSub (pyLower "shall indemnify and keep confidential records".toList)
      "confidential".toList = true ∧
    classify_clause_type "shall indemnify and keep confidential records" = "Indemnity" := by
  exact ⟨classify_eq_spec, by decide, by decide, by decide⟩

set_option maxRecDepth 8000 in
/-- C8 counterexample: the claim asserts the capture-group currency rule
produces "INR 1,000" on "1,000 रुपये"; in the code the plain marker rule
`रुपये|₹ -> INR` is listed first and consumes the marker, so the output is
"1,000 INR", not "INR 1,000". -/
theorem c8_currency_capture_rule_preempted :
    normalize_text "1,000 रुपये" = "1,000 INR" ∧
    normalize_text "1,000 रुपये" ≠ "INR 1,000" := by
  constructor
  · decide
  · decide

set_option maxRecDepth 8000 in
/-- C8 amended: the plain currency-marker rule precedes the capture-group
currency rule and rewrites the marker in place ("1,000 रुपये" becomes
"1,000 INR"); the percentage rewrites do consume a preceding number via a
capture group. -/
theorem c8_currency_amended :
    normalize_text "1,000 रुपये" = "1,000 INR" ∧
    normalize_text "10 प्रतिशत" = "10%" ∧
    normalize_text "12.5 फीसदी" = "12.5%" := by
  refine ⟨by decide, by decide, by decide⟩

/-- C5 counterexample: the claim promises that a text with 5 numbered
clauses "1. ... 2. ... 3. ... 4. ... 5. ..." yields exactly 5 Clause records
with ids 1..5; on that very text the delimiter pattern requires a preceding
newline, so the first clause lands in the discarded zeroth segment and only
4 records (holding clauses 2..5) are returned. -/
theorem c5_leading_numbered_clause_lost :
    (segment_clauses "1. a\n2. b\n3. c\n4. d\n5. e").map (fun c => c.clause_id) =
      [1, 2, 3, 4] ∧
    (segment_clauses "1. a\n2. b\n3. c\n4. d\n5. e").map (fun c => c.text) =
      ["b", "c", "d", "e"] ∧
    (segment_clauses "1. a\n2. b\n3. c\n4. d\n5. e").length ≠ 5 := by
  refine ⟨by decide, by decide, by decide⟩

/-- C5 amended: the four structural delimiter patterns are tried in fixed
priority order and the first one splitting into more than 3 segments wins,
with later patterns never consulted (whenever pattern 1 yields more than 3
segments, the result is built from its split alone); a text whose five
numbered clauses are each preceded by a newline (here after a preamble line)
yields exactly 5 Clause records with ids 1..5 in input order, while a text
starting with "1." at offset zero loses its first clause to the discarded
zeroth segment. -/
theorem c5_segmentation_amended :
    (∀ text : String, 3 < (reSplit p1Match text.toList).length →
      tryStructural clause_patterns text.toList =
        buildClauses 1 ((reSplit p1Match text.toList).drop 1)) ∧
    (segment_clauses "Preamble\n1. aaa\n2. bbb\n3. ccc\n4. ddd\n5. eee").map
      (fun c => c.clause_id) = [1, 2, 3, 4, 5] ∧
    (segment_clauses "Preamble\n1. aaa\n2. bbb\n3. ccc\n4. ddd\n5. eee").map
      (fun c => c.text) = ["aaa", "bbb", "ccc", "ddd", "eee"] := by
  refine ⟨?_, by decide, by decide⟩
  intro text h
  simp only [String.toList] at h
  unfold tryStructural clause_patterns
  simp [String.toList, h]

/-- C5 witness for the priority conjunct at the preamble text. -/
theorem c5_segmentation_amended_witness :
    3 < (reSplit p1Match "Preamble\n1. aaa\n2. bbb\n3. ccc\n4. ddd\n5. eee".toList).length ∧
    tryStructural clause_patterns
        "Preamble\n1. aaa\n2. bbb\n3. ccc\n4. ddd\n5. eee".toList =
      buildClauses 1
        ((reSplit p1Match "Preamble\n1. aaa\n2. bbb\n3. ccc\n4. ddd\n5. eee".toList).drop 1) :=
  ⟨by decide,
   c5_segmentation_amended.1 "Preamble\n1. aaa\n2. bbb\n3. ccc\n4. ddd\n5. eee" (by decide)⟩

/-- C10 counterexample (the claim's negation): the claim says that for some
inputs the returned clause_id values are non-contiguous and a clause_id need
not equal its 1-based position; in fact the ids of `segment_clauses` are
always exactly the contiguous range 1..n, because each structural pattern
greedily consumes trailing whitespace (or everything through the last
newline of a whitespace run), so a whitespace-only segment can only be the
final one and the advancing counter never skips past a kept clause. -/
theorem c10_no_noncontiguous_ids :
    ¬ ∃ text : String,
        (segment_clauses text).map (fun c => c.clause_id) ≠
          List.range' 1 (segment_clauses text).length := by
  rintro ⟨t, ht⟩
  exact ht (segment_ids t)

/-- C10 amended: whitespace-only segments are skipped while the enumeration
counter advances, but with the four structural patterns such a segment can
only occur in final position (for pattern 1 this appears as: every non-last
segment of `segments[1:]` has a nonempty strip), so the returned clause_id
values are always the contiguous range 1..n and every clause's clause_id
equals its 1-based position in the returned sequence. -/
theorem c10_ids_contiguous_amended :
    ∀ text : String,
      (segment_clauses text).map (fun c => c.clause_id) =
        List.range' 1 (segment_clauses text).length ∧
      ∀ seg ∈ ((reSplit p1Match text.toList).drop 1).dropLast, pyStrip seg ≠ [] := by
  intro t
  exact ⟨segment_ids t, reSplit_drop_one p1Match_ok t.toList⟩

/-- C9: the core public functions are total on all inputs: the two guarded
divisions (`detect_language`, `calculate_composite_risk`) always succeed,
`analyze_clause_risk` always yields one of the three levels,
`classify_clause_type` always yields a taxonomy category or "General", and
the normalizer and segmenter return well-typed (possibly empty) results on
the empty string. -/
theorem c9_core_functions_total :
    ∀ (text clause_type : String) (analyses : List ClauseAnalysis),
      (detect_language text).isSome = true ∧
      (calculate_composite_risk analyses).isSome = true ∧
      (analyze_clause_risk text clause_type).risk_level ∈ ["High", "Medium", "Low"] ∧
      classify_clause_type text ∈ "General" :: classifierTaxonomy.map Prod.fst ∧
      normalize_text "" = "" ∧
      segment_clauses "" = [] := by
  intro text clause_type analyses
  refine ⟨detect_language_total text, composite_total analyses, ?_, ?_, rfl, by decide⟩
  · show score_to_level _ ∈ _
    exact score_to_level_mem _
  · rw [classify_eq_spec]
    exact firstMatching_mem _ _


/-- C7: `normalize_text` is idempotent on text containing no Hindi content
(no Devanagari characters): on such text the numeral map, the
currency-capture, percentage and dictionary passes are identities, and what
remains is the date rewrite (idempotent, since a rewritten date re-matches
to itself) followed by rupee-sign flattening (idempotent and commuting with
the date rewrite), so a second `normalize_text` is a no-op. -/
theorem c7_normalize_idempotent_without_hindi (text : String)
    (h : ∀ c ∈ text.toList, isDevanagari c = false) :
    normalize_text (normalize_text text) = normalize_text text := by
  by_cases h0 : text.isEmpty = true
  · have e : normalize_text text = text := by
      unfold normalize_text
      rw [if_pos h0]
    rw [e, e]
  · have hne : text.isEmpty = false := by
      cases hb : text.isEmpty with
      | false => rfl
      | true => exact absurd hb h0
    rw [normalize_devfree_eq hne h]
    by_cases h2 : (String.mk (rupFlat (dateSub text.toList))).isEmpty = true
    · conv_lhs => unfold normalize_text
      rw [if_pos h2]
    · have hne2 : (String.mk (rupFlat (dateSub text.toList))).isEmpty = false := by
        cases hb : (String.mk (rupFlat (dateSub text.toList))).isEmpty with
        | false => rfl
        | true => exact absurd hb h2
      have hdev2 : DevFree (String.mk (rupFlat (dateSub text.toList))).toList :=
        rupFlat_devfree (dateSub_devfree h)
      rw [normalize_devfree_eq hne2 hdev2]
      show String.mk (rupFlat (dateSub (rupFlat (dateSub text.toList)))) = _
      rw [dateSub_rupFlat_comm, dateSub_idem, rupFlat_idem]

/-- Concrete instance of the C7 theorem: an English clause with a rupee
amount, a date and a percentage is Devanagari-free and normalizes to a fixed
point. -/
theorem c7_normalize_idempotent_without_hindi_witness :
    (∀ c ∈ ("Pay ₹500 by 12-05-2023, fee 10%" : String).toList,
      isDevanagari c = false) ∧
    normalize_text (normalize_text "Pay ₹500 by 12-05-2023, fee 10%") =
      normalize_text "Pay ₹500 by 12-05-2023, fee 10%" :=
  ⟨by decide, c7_normalize_idempotent_without_hindi _ (by decide)⟩

end Legal
